import Mathlib

/-! # The NLP-16 assembler (`main.c`): a shallow embedding and its properties

The assembler reads assembly lines, encodes `mov` / `add` instructions into a
table (pass 1), patches label references (pass 2) and prints the table.

Modelling conventions
* A C string is the list of its characters before the terminating NUL.
* `exit(1)` paths return `Except.error` with the diagnostic's kind; a NULL
  dereference or a write past one of the fixed arrays is `Fatal.undefinedBehaviour`.
* Fixed-width machine integers are `Nat` / `Int` with explicit reductions
  (`% 256` for `uint8_t`, `% 65536` for `uint16_t`, 32-bit two's complement for `int`).
* The standard input is the list of buffers returned by the successive `fgets` calls.
-/

namespace Nlp16

/-- A C string: its characters up to, not including, the terminating NUL. -/
abbrev CStr := List Char

/-- The ways a run stops without a result: one constructor per `exit(1)` diagnostic of
`main.c`, and `undefinedBehaviour` for what C leaves undefined (NULL passed to `strcmp`,
a write past the end of a fixed array). -/
inductive Fatal where
  | tooFewOperands
  | unknownFlag
  | unknownPrefix
  | prefixRequired
  | failedConversion
  | bothImm16
  | unknownMnemonic
  | labelTooBig
  | unknownLabel
  | undefinedBehaviour
  deriving DecidableEq, Repr

/-! ## The C library functions the program calls -/

/-- Membership of a character in a delimiter set, as a boolean test. -/
def inSet (set : CStr) (c : Char) : Bool := decide (c ∈ set)

/-- Library function `strspn(s, accept)`: the length of the longest prefix of `s` made
of characters of `accept`. -/
def strspn (s accept : CStr) : Nat := (s.takeWhile (inSet accept)).length

/-- Library function `strcspn(s, reject)`: the length of the longest prefix of `s` free
of characters of `reject`. -/
def strcspn (s reject : CStr) : Nat := (s.takeWhile (fun c => !inSet reject c)).length

/-- One `strtok` step on the text that remains to be scanned: `none` when only
delimiters are left (the call returns NULL), otherwise the token and the text that
a following `strtok(NULL, ..)` scans (what follows the delimiter that ended the
token, or nothing when the token ran to the end of the string). -/
def strtok (s delim : CStr) : Option (CStr × CStr) :=
  let s1 := s.drop (strspn s delim)
  if s1 = [] then none
  else
    let n := strcspn s1 delim
    some (s1.take n, s1.drop (n + 1))

/-- Library function `strchr(s, c)` for `c ≠ NUL`: `none` when `c` does not occur,
otherwise the text before the first occurrence and the text after it. -/
def strchr (s : CStr) (c : Char) : Option (CStr × CStr) :=
  let n := (s.takeWhile (fun d => d != c)).length
  if n < s.length then some (s.take n, s.drop (n + 1)) else none

/-- Library function `isspace` in the C locale. -/
def isspace (c : Char) : Bool :=
  c = ' ' || c = '\t' || c = '\n' || c = '\x0b' || c = '\x0c' || c = '\r'

/-- Value of a character as a digit in bases up to 36, as `strtol` reads it. -/
def digitVal (c : Char) : Option Nat :=
  if '0' ≤ c ∧ c ≤ '9' then some (c.toNat - '0'.toNat)
  else if 'a' ≤ c ∧ c ≤ 'z' then some (c.toNat - 'a'.toNat + 10)
  else if 'A' ≤ c ∧ c ≤ 'Z' then some (c.toNat - 'A'.toNat + 10)
  else none

/-- The digit loop of `strtol`: consumes the digits valid in `base`, returns the
accumulated magnitude, how many digits were read and the unread text. -/
def scanDigits (base : Nat) : CStr → Nat → Nat → Nat × Nat × CStr
  | [], acc, cnt => (acc, cnt, [])
  | c :: cs, acc, cnt =>
    match digitVal c with
    | some d => if d < base then scanDigits base cs (acc * base + d) (cnt + 1)
                else (acc, cnt, c :: cs)
    | none => (acc, cnt, c :: cs)

/-- Constant `LONG_MAX` on an LP64 platform. -/
def LONG_MAX : Int := 2 ^ 63 - 1

/-- Constant `LONG_MIN` on an LP64 platform. -/
def LONG_MIN : Int := -(2 ^ 63)

/-- Sign and saturation of `strtol`'s result. -/
def clampLong (neg : Bool) (mag : Nat) : Int :=
  if neg then (if -(mag : Int) < LONG_MIN then LONG_MIN else -(mag : Int))
  else (if LONG_MAX < (mag : Int) then LONG_MAX else (mag : Int))

/-- Library function `strtol(nptr, &endptr, 0)` (ISO C: optional white space, optional
sign, then `0x` / `0X` hexadecimal, leading `0` octal, otherwise decimal; the result
saturates at `LONG_MIN` / `LONG_MAX`): `none` when no conversion is performed
(`endptr == nptr`), otherwise the value and the text `endptr` points to. -/
def strtol (nptr : CStr) : Option (Int × CStr) :=
  let s := nptr.dropWhile isspace
  let neg := s.head? = some '-'
  let s := if s.head? = some '-' ∨ s.head? = some '+' then s.tail else s
  match s with
  | '0' :: x :: rest =>
    if x = 'x' ∨ x = 'X' then
      match scanDigits 16 rest 0 0 with
      | (_, 0, _) => some (0, x :: rest)
      | (mag, _, r) => some (clampLong neg mag, r)
    else
      match scanDigits 8 (x :: rest) 0 0 with
      | (mag, _, r) => some (clampLong neg mag, r)
  | _ =>
    match scanDigits (if s.head? = some '0' then 8 else 10) s 0 0 with
    | (_, 0, _) => none
    | (mag, _, r) => some (clampLong neg mag, r)

/-- Conversion of a `long` to `int`: the low 32 bits, read as two's complement. -/
def longToInt (v : Int) : Int :=
  let m := v % 2 ^ 32
  if m < 2 ^ 31 then m else m - 2 ^ 32

/-- The 32 bits of an `int` as a natural number (two's complement). -/
def intBits (v : Int) : Nat := (v % 2 ^ 32).toNat

/-! ## Source functions -/

/-- Source function `ToLower`: lower-cases every character of the string. -/
def ToLower (s : CStr) : CStr := s.map Char.toLower

/-- The operand loop of `SplitOpcode` (lines 25-30): at most `n` operands, each read by
`strtok(NULL, ",\n")` and stripped of its leading blanks and tabs; the loop stops at the
first NULL. -/
def SplitOpcode.operands : Nat → CStr → List CStr
  | 0, _ => []
  | n + 1, s =>
    match strtok s ",\n".toList with
    | none => []
    | some (tok, rest) => tok.drop (strspn tok " \t".toList) :: SplitOpcode.operands n rest

/-- Source function `SplitOpcode(line, &label, &mnemonic, operands, n)`. The result is
`(label, none)` when the function returns -1 (no mnemonic) and
`(label, some (mnemonic, operands))` otherwise, the C return value being
`operands.length`; `label` is `none` for NULL. -/
def SplitOpcode (line : CStr) (n : Nat) : Option CStr × Option (CStr × List CStr) :=
  let (label, line) :=
    match strchr line ':' with
    | some (before, after) => (some before, after)
    | none => (none, line)
  match strtok line " \t\n".toList with
  | none => (label, none)
  | some (mnemonic, rest) => (label, some (mnemonic, SplitOpcode.operands n rest))

/-- Source type `enum RegImmKind`. -/
inductive RegImmKind where
  | kReg
  | kImm8
  | kImm16
  deriving DecidableEq, Repr

/-- The integer value of a `RegImmKind` enumerator. -/
def RegImmKind.toNat : RegImmKind → Nat
  | .kReg => 0
  | .kImm8 => 1
  | .kImm16 => 2

/-- Source type `struct RegImm`: `val` is a `uint16_t`. -/
structure RegImm where
  kind : RegImmKind
  val : Nat
  deriving DecidableEq, Repr

/-- The table `reg_names`. -/
def reg_names : List CStr :=
  ["ir1".toList, "ir2".toList, "ir3".toList, "flag".toList,
   "iv".toList, "a".toList, "b".toList, "c".toList,
   "d".toList, "e".toList, "mem".toList, "bank".toList,
   "addr".toList, "ip".toList, "sp".toList, "zr".toList]

/-- The `for` loop of `RegNameToIndex` over the entries from index `i` on. -/
def RegNameToIndex.loop (reg_name : CStr) : List CStr → Nat → Int
  | [], _ => -1
  | name :: names, i =>
    if name = reg_name then (i : Int) else RegNameToIndex.loop reg_name names (i + 1)

/-- Source function `RegNameToIndex`: index of the first table entry `strcmp`-equal to
`reg_name`, -1 when there is none. -/
def RegNameToIndex (reg_name : CStr) : Int :=
  RegNameToIndex.loop reg_name reg_names 0

/-- Character `s[i]` of a C string: the terminating NUL at index `length`. -/
def charAt (s : CStr) (i : Nat) : Char := s.getD i '\x00'

/-- Source function `FlagNameToBits`: the condition code of a suffix, or the fatal
`unknown flag`. -/
def FlagNameToBits (flag_name : CStr) : Except Fatal Nat :=
  let isN := charAt flag_name 0 = 'n'
  if isN ∧ flag_name.drop 1 = "op".toList then .ok 0
  else
    let flag := if isN then charAt flag_name 1 else charAt flag_name 0
    let mask := if isN then 1 else 0
    if flag = 'c' then .ok ((2 ||| mask) % 256)
    else if flag = 'v' then .ok ((4 ||| mask) % 256)
    else if flag = 'z' then .ok ((6 ||| mask) % 256)
    else if flag = 's' then .ok ((8 ||| mask) % 256)
    else .error .unknownFlag

/-- Source type `struct Instruction`: `op`, `out`, `in` (here `in_`, `in` being
reserved) and `imm8` are `uint8_t`, `imm16` is `uint16_t`. -/
structure Instruction where
  op : Nat
  out : Nat
  in_ : Nat
  imm8 : Nat
  imm16 : Nat
  deriving DecidableEq, Repr

/-- An entry of the instruction table after `memset(insn, 0, sizeof(insn))`. -/
def Instruction.zero : Instruction := ⟨0, 0, 0, 0, 0⟩

/-- Source type `struct LabelAddr`. -/
structure LabelAddr where
  label : CStr
  pc : Int
  deriving DecidableEq, Repr

/-- Source type `enum BPType`. -/
inductive BPType where
  | BP_ABS16
  | BP_ABS8
  deriving DecidableEq, Repr

/-- Source type `struct Backpatch`. -/
structure Backpatch where
  insn_idx : Nat
  label : CStr
  type : BPType
  deriving DecidableEq, Repr

/-- Source function `GetOperand`: the `i`-th operand, fatal when the line has `n <= i`
operands (`n` is `operands.length`). -/
def GetOperand (operands : List CStr) (i : Nat) : Except Fatal CStr :=
  if operands.length ≤ i then .error .tooFewOperands else .ok (operands.getD i [])

/-- Source function `GetOperandReg`. -/
def GetOperandReg (operand : CStr) : Int := RegNameToIndex operand

/-- Conversion to `uint16_t`. -/
def toU16 (v : Int) : Nat := (v % 65536).toNat

/-- Conversion to `uint8_t`. -/
def toU8 (v : Int) : Nat := (v % 256).toNat

/-- The two `strtok` calls that open `GetOperandRegImm`, with the swap that follows
them: `(prefix, value)`, each `none` for NULL. -/
def GetOperandRegImm.tokens (operand : CStr) : Option CStr × Option CStr :=
  match strtok operand " \t".toList with
  | none => (none, none)
  | some (tok1, rest) =>
    match strtok rest " \t".toList with
    | none => (none, some tok1)
    | some (tok2, _) => (some tok1, some tok2)

/-- Source function `GetOperandRegImm(operand, backpatches, &num_backpatches, insn_idx)`:
the resolved operand and the backpatch list after the call (`num_backpatches` is its
length). A NULL value token reaches `strcmp(.., NULL)`: `undefinedBehaviour`. The `long`
returned by `strtol` is narrowed to `int` before it is tested and stored. -/
def GetOperandRegImm (operand : CStr) (backpatches : List Backpatch) (insn_idx : Nat) :
    Except Fatal (RegImm × List Backpatch) :=
  match GetOperandRegImm.tokens operand with
  | (_, none) => .error .undefinedBehaviour
  | (pfx, some value) =>
    if pfx = none ∧ RegNameToIndex value ≠ -1 then
      .ok (⟨.kReg, toU16 (RegNameToIndex value)⟩, backpatches)
    else
      let conv := strtol value
      let kind : Except Fatal RegImmKind :=
        match pfx with
        | none => .ok .kReg
        | some p =>
          if ToLower p = "word".toList then .ok .kImm16
          else if ToLower p = "byte".toList then .ok .kImm8
          else .error .unknownPrefix
      match kind with
      | .error e => .error e
      | .ok kind =>
        match conv with
        | none =>
          if pfx = none then .error .prefixRequired
          else
            .ok (⟨kind, 0⟩,
              backpatches ++
                [⟨insn_idx, value, if kind = .kImm8 then .BP_ABS8 else .BP_ABS16⟩])
        | some (v, endptr) =>
          if endptr ≠ [] then .error .failedConversion
          else
            let v := longToInt v
            if pfx = none then
              .ok (⟨if 0 ≤ v ∧ v ≤ 255 then .kImm8 else .kImm16, toU16 v⟩, backpatches)
            else .ok (⟨kind, toU16 v⟩, backpatches)

/-- Source function `SetImm(insn, imm_kind, v)`, `v` being a `uint16_t`. -/
def SetImm (insn : Instruction) (imm_kind : RegImmKind) (v : Nat) : Instruction :=
  if imm_kind = .kImm8 then { insn with imm8 := v % 65536 % 256 }
  else if imm_kind = .kImm16 then { insn with imm16 := v % 65536 }
  else insn

/-- Source function `SetInput(insn, in1, in2)`, `in2 = none` for NULL: the instruction
after the call and the return value. -/
def SetInput (insn : Instruction) (in1 : RegImm) (in2 : Option RegImm) : Instruction × Int :=
  match in2 with
  | none =>
    if in1.kind = .kReg then
      ({ insn with in_ := (in1.val <<< 4) % 256 }, 2)
    else
      (SetImm { insn with in_ := (in1.kind.toNat <<< 4) % 256 } in1.kind in1.val,
        in1.kind.toNat)
  | some in2 =>
    if in1.kind = .kReg ∧ in2.kind = .kReg then
      ({ insn with in_ := ((in1.val <<< 4) ||| in2.val) % 256 }, 2)
    else if in1.kind = .kReg ∧ in2.kind ≠ .kReg then
      (SetImm { insn with in_ := ((in1.val <<< 4) ||| in2.kind.toNat) % 256 } in2.kind in2.val,
        1 + in2.kind.toNat)
    else if in1.kind ≠ .kReg ∧ in2.kind = .kReg then
      (SetImm { insn with in_ := ((in1.kind.toNat <<< 4) ||| in2.val) % 256 } in1.kind in1.val,
        1 + in1.kind.toNat)
    else if in1.kind = .kImm16 ∧ in2.kind = .kImm16 then
      (insn, -1)
    else if in1.kind = .kImm8 then
      (SetImm (SetImm
          { insn with in_ := ((RegImmKind.kImm8.toNat <<< 4) ||| RegImmKind.kImm16.toNat) % 256 }
          .kImm8 in1.val) .kImm16 in2.val, 3)
    else
      (SetImm (SetImm
          { insn with in_ := ((RegImmKind.kImm16.toNat <<< 4) ||| RegImmKind.kImm8.toNat) % 256 }
          .kImm16 in1.val) .kImm8 in2.val, 3)

/-! ## `main` -/

/-- Source constant `#define MAX_OPERAND 4`. -/
def MAX_OPERAND : Nat := 4

/-- Source constant `#define ORIGIN 0`. -/
def ORIGIN : Int := 0

/-- The variables of `main` that pass 1 updates: the instruction table (its entries
`0 .. insn_idx - 1`, so `insn_idx` is `insn.length`; the entries from `insn_idx` on are
all-zero), the program counter, the pending backpatches (`num_backpatches` is the
length) and the label table (`num_labels` is the length). -/
structure State where
  insn : List Instruction
  pc : Int
  backpatches : List Backpatch
  labels : List LabelAddr
  deriving DecidableEq, Repr

/-- The variables at the start of `main`. -/
def State.init : State := ⟨[], ORIGIN, [], []⟩

/-- Lines 291-297 of `main`: splits the lower-cased mnemonic at its first `.` and
resolves the condition code (1 when there is no `.`). -/
def main.condition (mnemonic : CStr) : Except Fatal (CStr × Nat) :=
  match strchr mnemonic '.' with
  | some (base, flag_name) =>
    match FlagNameToBits flag_name with
    | .ok flag => .ok (base, flag)
    | .error e => .error e
  | none => .ok (mnemonic, 1)

/-- The assignment `insn[insn_idx].out = (flag << 4) | GET_REG(0)`: an `int`
bitwise or, stored into a `uint8_t`. -/
def main.outByte (flag : Nat) (reg : Int) : Nat :=
  ((flag <<< 4) ||| intBits reg) % 256

/-- The entry `insn[insn_idx]` after the two assignments to `op` and `out` that open the
`add` and `mov` branches of `main`, the other fields still zero. -/
def opcodeOut (opcode flag : Nat) (ops : List CStr) : Instruction :=
  { Instruction.zero with op := opcode, out := main.outByte flag (GetOperandReg (ops.getD 0 [])) }

/-- Lines 299-321 of `main`: encodes one instruction from the base mnemonic, the
condition code and the operands, appends it to the table and advances `pc`. The
tables are C arrays of 1024 instructions and 128 backpatches: a write past either is
`undefinedBehaviour`. -/
def main.encode (st : State) (mnemonic : CStr) (flag : Nat) (operands : List CStr) :
    Except Fatal State :=
  let insn_idx := st.insn.length
  if mnemonic = "add".toList then
    if 1024 ≤ insn_idx then .error .undefinedBehaviour
    else
      match GetOperand operands 0 with
      | .error e => .error e
      | .ok opr0 =>
        let insn0 : Instruction :=
          { Instruction.zero with op := 0x12, out := main.outByte flag (GetOperandReg opr0) }
        match GetOperand operands 1 with
        | .error e => .error e
        | .ok opr1 =>
          match GetOperandRegImm opr1 st.backpatches insn_idx with
          | .error e => .error e
          | .ok (in1, bps1) =>
            if 128 < bps1.length then .error .undefinedBehaviour
            else
            match GetOperand operands 2 with
            | .error e => .error e
            | .ok opr2 =>
              match GetOperandRegImm opr2 bps1 insn_idx with
              | .error e => .error e
              | .ok (in2, bps2) =>
                if 128 < bps2.length then .error .undefinedBehaviour
                else
                match SetInput insn0 in1 (some in2) with
                | (insn1, insn_len) =>
                  if insn_len = -1 then .error .bothImm16
                  else
                    .ok { st with insn := st.insn ++ [insn1], pc := st.pc + insn_len,
                                  backpatches := bps2 }
  else if mnemonic = "mov".toList then
    if 1024 ≤ insn_idx then .error .undefinedBehaviour
    else
      match GetOperand operands 0 with
      | .error e => .error e
      | .ok opr0 =>
        let insn0 : Instruction :=
          { Instruction.zero with op := 0x00, out := main.outByte flag (GetOperandReg opr0) }
        match GetOperand operands 1 with
        | .error e => .error e
        | .ok opr1 =>
          match GetOperandRegImm opr1 st.backpatches insn_idx with
          | .error e => .error e
          | .ok (in1, bps1) =>
            if 128 < bps1.length then .error .undefinedBehaviour
            else
            match SetInput insn0 in1 none with
            | (insn1, insn_len) =>
              .ok { st with insn := st.insn ++ [insn1], pc := st.pc + insn_len,
                            backpatches := bps1 }
  else .error .unknownMnemonic

/-- The body of the `while (fgets ..)` loop of `main` (lines 277-321) on one line. The
label table is a C array of 128 entries. -/
def main.line (st : State) (line : CStr) : Except Fatal State :=
  match SplitOpcode line MAX_OPERAND with
  | (label, split) =>
    let st1 : Except Fatal State :=
      match label with
      | some l =>
        if 128 ≤ st.labels.length then .error .undefinedBehaviour
        else .ok { st with labels := st.labels ++ [⟨l, st.pc⟩] }
      | none => .ok st
    match st1 with
    | .error e => .error e
    | .ok st1 =>
      match split with
      | none => .ok st1
      | some (mnemonic, operands) =>
        match main.condition (ToLower mnemonic) with
        | .error e => .error e
        | .ok (base, flag) => main.encode st1 base flag operands

/-- Pass 1: the `while (fgets ..)` loop over the input lines. -/
def main.pass1 : State → List CStr → Except Fatal State
  | st, [] => .ok st
  | st, line :: lines =>
    match main.line st line with
    | .error e => .error e
    | .ok st1 => main.pass1 st1 lines

/-- One iteration of the outer loop of pass 2 (lines 325-350): looks the label of `bp`
up (first match) and writes its address into the target instruction. A target index
outside the table leaves the listed entries as they are. -/
def main.patch (labels : List LabelAddr) (insn : List Instruction) (bp : Backpatch) :
    Except Fatal (List Instruction) :=
  match labels.find? (fun l => decide (bp.label = l.label)) with
  | none => .error .unknownLabel
  | some l =>
    match bp.type with
    | .BP_ABS16 =>
      .ok (match insn[bp.insn_idx]? with
           | some t => insn.set bp.insn_idx { t with imm16 := toU16 l.pc }
           | none => insn)
    | .BP_ABS8 =>
      if 256 ≤ l.pc then .error .labelTooBig
      else
        .ok (match insn[bp.insn_idx]? with
             | some t => insn.set bp.insn_idx { t with imm8 := toU8 l.pc }
             | none => insn)

/-- Pass 2 (lines 324-351): the backpatches are applied in the order recorded. -/
def main.pass2 (labels : List LabelAddr) : List Backpatch → List Instruction →
    Except Fatal (List Instruction)
  | [], insn => .ok insn
  | bp :: bps, insn =>
    match main.patch labels insn bp with
    | .error e => .error e
    | .ok insn1 => main.pass2 labels bps insn1

/-- A hexadecimal digit as `printf` writes it (`%X` upper case, `%x` lower case). -/
def hexDigit (upper : Bool) (d : Nat) : Char :=
  if d < 10 then Char.ofNat ('0'.toNat + d)
  else Char.ofNat ((if upper then 'A'.toNat else 'a'.toNat) + (d - 10))

/-- The hexadecimal digits of `n`, most significant first, taking at most `fuel + 1`
digits. -/
def hexDigits (upper : Bool) : Nat → Nat → CStr → CStr
  | 0, n, acc => hexDigit upper (n % 16) :: acc
  | fuel + 1, n, acc =>
    if n < 16 then hexDigit upper n :: acc
    else hexDigits upper fuel (n / 16) (hexDigit upper (n % 16) :: acc)

/-- The conversions `%02X`, `%04X`, `%08x` of `printf` on an unsigned value below
`2 ^ 32`: its hexadecimal digits, zero-padded on the left to `width`. -/
def printfHex (upper : Bool) (width : Nat) (n : Nat) : CStr :=
  let ds := hexDigits upper 7 n []
  List.replicate (width - ds.length) '0' ++ ds

/-- The width test of the emitter (line 367). -/
def main.hasImm16 (i : Instruction) : Bool :=
  (i.in_ &&& 0xf0 = 0x20) || (i.in_ &&& 0x0f = 0x02)

/-- The body of the emitter loop (lines 360-374) for one instruction: the text
printed and the address counter after it. -/
def main.emitInsn (debug : Bool) (pc : Int) (i : Instruction) : CStr × Int :=
  let sep : Char := if debug then ' ' else '\n'
  let addr : CStr := if debug then printfHex false 8 (intBits pc) ++ ": ".toList else []
  let w1 : CStr := printfHex true 2 i.op ++ printfHex true 2 i.out ++ [sep]
  let w2 : CStr := printfHex true 2 i.in_ ++ printfHex true 2 i.imm8 ++ [sep]
  let w3 : CStr := if main.hasImm16 i then printfHex true 4 i.imm16 ++ [sep] else []
  let nl : CStr := if debug then ['\n'] else []
  (addr ++ w1 ++ w2 ++ w3 ++ nl, (pc + 2) + (if main.hasImm16 i then 1 else 0))

/-- The emitter loop (lines 359-375): everything printed from address `pc` on. -/
def main.emit (debug : Bool) : Int → List Instruction → CStr
  | _, [] => []
  | pc, i :: is =>
    (main.emitInsn debug pc i).1 ++ main.emit debug (main.emitInsn debug pc i).2 is

/-- The program: `argv1` is `argv[1]` when `argc > 1`, `stdin` the input lines; the
result is the text written to the standard output, or the reason the run stopped
(nothing is written to the standard output before the emitter starts). -/
def main (argv1 : Option CStr) (stdin : List CStr) : Except Fatal CStr :=
  match main.pass1 State.init stdin with
  | .error e => .error e
  | .ok st =>
    match main.pass2 st.labels st.backpatches st.insn with
    | .error e => .error e
    | .ok insn =>
      let debug : Bool := decide (argv1 = some "-d".toList)
      .ok (main.emit debug ORIGIN insn)

/-- Passes 1 and 2 of `main` (lines 276-351): the instruction table as the emitter
receives it. -/
def main.assemble (stdin : List CStr) : Except Fatal (List Instruction) :=
  match main.pass1 State.init stdin with
  | .error e => .error e
  | .ok st => main.pass2 st.labels st.backpatches st.insn

deriving instance DecidableEq for Except

/-- What a backpatch of type `bp.type` writes into its target instruction once the
label's address `addr` is known (the two `case`s of the `switch` at lines 332-344). -/
def patched (bp : Backpatch) (addr : Int) (t : Instruction) : Instruction :=
  match bp.type with
  | .BP_ABS16 => { t with imm16 := toU16 addr }
  | .BP_ABS8 => { t with imm8 := toU8 addr }

/-- The invariant of pass 1: every pending backpatch names an instruction already in the
table, the table holds at most 1024 instructions, `pc` lies between 0 and three words
per instruction, and so does every recorded label address. -/
def PassInv (st : State) : Prop :=
  (∀ b ∈ st.backpatches, b.insn_idx < st.insn.length) ∧ st.insn.length ≤ 1024 ∧
    0 ≤ st.pc ∧ st.pc ≤ 3 * (st.insn.length : Int) ∧
    ∀ l ∈ st.labels, 0 ≤ l.pc ∧ l.pc ≤ 3072

instance (st : State) : Decidable (PassInv st) := by
  unfold PassInv
  infer_instance


end Nlp16

/-! ## Properties -/

namespace Nlp16

/-! ### Shared lemmas -/

theorem toNat_ofNat_valid (n : Nat) (hv : n.isValidChar) : (Char.ofNat n).toNat = n := by
  unfold Char.ofNat
  rw [dif_pos hv]
  rfl

theorem toLower_eq_dot (e : Char) (h : e.toLower = '.') : e = '.' := by
  unfold Char.toLower at h
  simp only at h
  by_cases hr : e.toNat ≥ 65 ∧ e.toNat ≤ 90
  · rw [if_pos hr] at h
    have h1 : (Char.ofNat (e.toNat + 32)).toNat = 46 := by rw [h]; rfl
    have hv : (e.toNat + 32).isValidChar := by
      unfold Nat.isValidChar; omega
    rw [toNat_ofNat_valid _ hv] at h1
    omega
  · rw [if_neg hr] at h
    exact h

theorem RegNameToIndex.loop_range (s : CStr) (names : List CStr) (i : Nat) :
    RegNameToIndex.loop s names i = -1 ∨
      ((i : Int) ≤ RegNameToIndex.loop s names i ∧
        RegNameToIndex.loop s names i < (i : Int) + names.length) := by
  induction names generalizing i with
  | nil => left; rfl
  | cons n ns ih =>
    unfold RegNameToIndex.loop
    split
    · right
      simp only [List.length_cons]
      omega
    · rcases ih (i + 1) with h | ⟨h1, h2⟩
      · left; exact h
      · right
        simp only [List.length_cons]
        push_cast at h1 h2 ⊢
        omega

theorem RegNameToIndex.loop_mem (s : CStr) (names : List CStr) (i : Nat)
    (h : RegNameToIndex.loop s names i ≠ -1) : s ∈ names := by
  induction names generalizing i with
  | nil => exact absurd rfl h
  | cons n ns ih =>
    unfold RegNameToIndex.loop at h
    split at h
    · rename_i heq
      simp [heq]
    · exact List.mem_cons_of_mem _ (ih (i + 1) h)

theorem RegNameToIndex.loop_not_mem (s : CStr) (names : List CStr) (i : Nat)
    (h : s ∉ names) : RegNameToIndex.loop s names i = -1 := by
  induction names generalizing i with
  | nil => rfl
  | cons n ns ih =>
    unfold RegNameToIndex.loop
    have hne : n ≠ s := fun e => h (by simp [e])
    rw [if_neg hne]
    exact ih (i + 1) (fun hm => h (List.mem_cons_of_mem _ hm))

theorem RegNameToIndex_range (s : CStr) :
    RegNameToIndex s = -1 ∨ (0 ≤ RegNameToIndex s ∧ RegNameToIndex s < 16) := by
  have h := RegNameToIndex.loop_range s reg_names 0
  have hl : reg_names.length = 16 := rfl
  unfold RegNameToIndex
  rw [hl] at h
  simpa using h

theorem RegNameToIndex_mem (s : CStr) (h : RegNameToIndex s ≠ -1) : s ∈ reg_names :=
  RegNameToIndex.loop_mem s reg_names 0 h

theorem RegNameToIndex_not_mem (s : CStr) (h : s ∉ reg_names) : RegNameToIndex s = -1 :=
  RegNameToIndex.loop_not_mem s reg_names 0 h

theorem reg_names_lower : ∀ n ∈ reg_names, ToLower n = n := by decide

theorem reg_names_found : ∀ n ∈ reg_names, RegNameToIndex n ≠ -1 := by decide

theorem FlagNameToBits_le (s : CStr) (c : Nat) (h : FlagNameToBits s = .ok c) : c ≤ 9 := by
  unfold FlagNameToBits at h
  by_cases hn : charAt s 0 = 'n'
  · simp only [hn, true_and, if_true] at h
    repeat' split at h
    all_goals first
      | (injection h with h; subst h; decide)
      | exact absurd h (by simp)
  · simp only [hn, false_and, if_false] at h
    repeat' split at h
    all_goals first
      | (injection h with h; subst h; decide)
      | exact absurd h (by simp)

theorem condition_le (m base : CStr) (c : Nat) (h : main.condition m = .ok (base, c)) :
    c ≤ 9 := by
  unfold main.condition at h
  split at h
  · split at h
    · rename_i flag hf
      injection h with h
      injection h with _ h2
      subst h2
      exact FlagNameToBits_le _ _ hf
    · exact absurd h (by simp)
  · injection h with h
    injection h with _ h2
    subst h2
    decide

theorem intBits_natCast (r : Nat) (h : r < 16) : intBits (r : Int) = r := by
  unfold intBits
  omega

theorem outByte_reg (c r : Nat) (hc : c ≤ 9) (hr : r < 16) :
    main.outByte c (r : Int) = (c <<< 4) ||| r := by
  unfold main.outByte
  rw [intBits_natCast r hr]
  have key : ∀ c : Fin 10, ∀ r : Fin 16,
      ((c.val <<< 4) ||| r.val) % 256 = (c.val <<< 4) ||| r.val := by decide
  exact key ⟨c, by omega⟩ ⟨r, hr⟩

theorem SetImm_op (insn : Instruction) (k : RegImmKind) (v : Nat) :
    (SetImm insn k v).op = insn.op ∧ (SetImm insn k v).out = insn.out ∧
      (SetImm insn k v).in_ = insn.in_ := by
  unfold SetImm
  repeat' split
  all_goals exact ⟨rfl, rfl, rfl⟩

theorem SetInput_op (insn : Instruction) (in1 : RegImm) (in2 : Option RegImm) :
    (SetInput insn in1 in2).1.op = insn.op ∧ (SetInput insn in1 in2).1.out = insn.out := by
  unfold SetInput
  repeat' split
  all_goals simp only [SetImm_op, and_self]

/-- Success of `main.encode` on `mov`, unfolded. -/
theorem encode_mov_ok (st st1 : State) (flag : Nat) (ops : List CStr)
    (h : main.encode st "mov".toList flag ops = .ok st1) :
    ∃ in1 bps1, st.insn.length < 1024 ∧ 1 < ops.length ∧
      GetOperandRegImm (ops.getD 1 []) st.backpatches st.insn.length = .ok (in1, bps1) ∧
      bps1.length ≤ 128 ∧
      st1 = { st with insn := st.insn ++ [(SetInput (opcodeOut 0x00 flag ops) in1 none).1],
                      pc := st.pc + (SetInput (opcodeOut 0x00 flag ops) in1 none).2,
                      backpatches := bps1 } := by
  have hne : ¬ ("mov".toList = "add".toList) := by decide
  unfold main.encode at h
  simp only [hne, if_true, if_false] at h
  unfold GetOperand at h
  by_cases h0 : 1024 ≤ st.insn.length
  · simp [h0] at h
  by_cases h1 : ops.length ≤ 0
  · simp [h0, h1] at h
  by_cases h2 : ops.length ≤ 1
  · simp [h0, h1, h2] at h
  simp only [h0, h1, h2, if_false] at h
  cases hg : GetOperandRegImm (ops.getD 1 []) st.backpatches st.insn.length with
  | error e => rw [hg] at h; exact absurd h (by simp)
  | ok r =>
    obtain ⟨in1, bps1⟩ := r
    rw [hg] at h
    simp only at h
    by_cases h3 : 128 < bps1.length
    · simp [h3] at h
    simp only [h3, if_false] at h
    injection h with h
    exact ⟨in1, bps1, by omega, by omega, rfl, by omega, h.symm⟩

/-- Success of `main.encode` on `add`, unfolded. -/
theorem encode_add_ok (st st1 : State) (flag : Nat) (ops : List CStr)
    (h : main.encode st "add".toList flag ops = .ok st1) :
    ∃ in1 bps1 in2 bps2, st.insn.length < 1024 ∧ 2 < ops.length ∧
      GetOperandRegImm (ops.getD 1 []) st.backpatches st.insn.length = .ok (in1, bps1) ∧
      GetOperandRegImm (ops.getD 2 []) bps1 st.insn.length = .ok (in2, bps2) ∧
      bps1.length ≤ 128 ∧ bps2.length ≤ 128 ∧
      (SetInput (opcodeOut 0x12 flag ops) in1 (some in2)).2 ≠ -1 ∧
      st1 = { st with insn := st.insn ++ [(SetInput (opcodeOut 0x12 flag ops) in1 (some in2)).1],
                      pc := st.pc + (SetInput (opcodeOut 0x12 flag ops) in1 (some in2)).2,
                      backpatches := bps2 } := by
  unfold main.encode at h
  simp only [if_true] at h
  unfold GetOperand at h
  by_cases h0 : 1024 ≤ st.insn.length
  · simp [h0] at h
  by_cases h1 : ops.length ≤ 0
  · simp [h0, h1] at h
  by_cases h2 : ops.length ≤ 1
  · simp [h0, h1, h2] at h
  simp only [h0, h1, h2, if_false] at h
  cases hg : GetOperandRegImm (ops.getD 1 []) st.backpatches st.insn.length with
  | error e => rw [hg] at h; exact absurd h (by simp)
  | ok r =>
    obtain ⟨in1, bps1⟩ := r
    rw [hg] at h
    simp only at h
    by_cases h3 : 128 < bps1.length
    · simp [h3] at h
    by_cases h4 : ops.length ≤ 2
    · simp [h3, h4] at h
    simp only [h3, h4, if_false] at h
    cases hg2 : GetOperandRegImm (ops.getD 2 []) bps1 st.insn.length with
    | error e => rw [hg2] at h; exact absurd h (by simp)
    | ok r2 =>
      obtain ⟨in2, bps2⟩ := r2
      rw [hg2] at h
      simp only at h
      by_cases h5 : 128 < bps2.length
      · simp [h5] at h
      simp only [h5, if_false] at h
      by_cases h6 : (SetInput (opcodeOut 0x12 flag ops) in1 (some in2)).2 = -1
      · exfalso
        unfold opcodeOut at h6
        rw [if_pos h6] at h
        exact absurd h (by simp)
      · unfold opcodeOut at h6
        rw [if_neg h6] at h
        injection h with h
        exact ⟨in1, bps1, in2, bps2, by omega, by omega, rfl, hg2, by omega, by omega, h6,
          h.symm⟩

/-- What `main.encode` appends when it succeeds: one instruction whose `op` is the
opcode of the mnemonic and whose `out` is the byte built from the first operand. -/
theorem encode_op_out (st st1 : State) (base : CStr) (flag : Nat) (ops : List CStr)
    (h : main.encode st base flag ops = .ok st1) :
    ∃ i, st1.insn = st.insn ++ [i] ∧
      i.op = (if base = "add".toList then 0x12 else 0x00) ∧
      i.out = main.outByte flag (GetOperandReg (ops.getD 0 [])) ∧
      (base = "add".toList ∨ base = "mov".toList) := by
  by_cases hadd : base = "add".toList
  · subst hadd
    obtain ⟨in1, bps1, in2, bps2, _, _, _, _, _, _, _, hst⟩ := encode_add_ok st st1 flag ops h
    subst hst
    refine ⟨_, rfl, ?_, ?_, Or.inl rfl⟩
    · rw [(SetInput_op _ _ _).1]; rfl
    · rw [(SetInput_op _ _ _).2]; rfl
  · by_cases hmov : base = "mov".toList
    · subst hmov
      obtain ⟨in1, bps1, _, _, _, _, hst⟩ := encode_mov_ok st st1 flag ops h
      subst hst
      refine ⟨_, rfl, ?_, ?_, Or.inr rfl⟩
      · rw [(SetInput_op _ _ _).1, if_neg hadd]; rfl
      · rw [(SetInput_op _ _ _).2]; rfl
    · unfold main.encode at h
      simp only [hadd, hmov, if_false] at h
      exact absurd h (by simp)

/-- Success of the loop body on a line that has a mnemonic, unfolded: the label (if any)
is recorded with the current `pc`, then the instruction is encoded. -/
theorem line_ok (st st1 : State) (line : CStr) (label : Option CStr) (mn : CStr)
    (ops : List CStr) (hsplit : SplitOpcode line MAX_OPERAND = (label, some (mn, ops)))
    (h : main.line st line = .ok st1) :
    ∃ base flag, main.condition (ToLower mn) = .ok (base, flag) ∧
      main.encode
        { st with labels := st.labels ++ (match label with
                                          | some l => [⟨l, st.pc⟩]
                                          | none => []) } base flag ops = .ok st1 := by
  unfold main.line at h
  rw [hsplit] at h
  simp only at h
  cases label with
  | none =>
    simp only at h
    cases hc : main.condition (ToLower mn) with
    | error e => rw [hc] at h; exact absurd h (by simp)
    | ok r =>
      obtain ⟨base, flag⟩ := r
      rw [hc] at h
      exact ⟨base, flag, rfl, by simpa using h⟩
  | some l =>
    simp only at h
    by_cases hl : 128 ≤ st.labels.length
    · rw [if_pos hl] at h; exact absurd h (by simp)
    · rw [if_neg hl] at h
      simp only at h
      cases hc : main.condition (ToLower mn) with
      | error e => rw [hc] at h; exact absurd h (by simp)
      | ok r =>
        obtain ⟨base, flag⟩ := r
        rw [hc] at h
        exact ⟨base, flag, rfl, h⟩

/-- C1, as stated, fails: the instruction assembled from `mov a, 5` does not have
`out = 0x10` (register `a` has index 5, so `out` is `0x15`). -/
theorem C1_out_is_not_0x10 :
    ¬ ∃ st i, main.pass1 State.init ["mov a, 5\n".toList] = .ok st ∧ st.insn = [i] ∧
        i.op = 0x00 ∧ i.out = 0x10 ∧ i.in_ = 0x10 ∧ i.imm8 = 0x05 ∧
        main.hasImm16 i = false := by
  rintro ⟨st, i, h, hi, _, hout, _⟩
  have hrun : main.pass1 State.init ["mov a, 5\n".toList] =
      .ok ⟨[⟨0x00, 0x15, 0x10, 0x05, 0⟩], 1, [], []⟩ := by decide
  rw [hrun] at h
  injection h with h
  subst h
  simp only [List.cons.injEq, and_true] at hi
  subst hi
  exact absurd hout (by decide)

/-- C1, amended: assembling the single line `mov a, 5` yields exactly one instruction,
with `op = 0x00`, `out = 0x15`, `in = 0x10`, `imm8 = 0x05`; the emitter's width test is
false for it, so no trailing `imm16` word is printed (the whole output is the two
16-bit words `0015` and `1005`). -/
theorem C1_mov_a_5 :
    main.pass1 State.init ["mov a, 5\n".toList] =
        .ok ⟨[⟨0x00, 0x15, 0x10, 0x05, 0⟩], 1, [], []⟩ ∧
      main.hasImm16 ⟨0x00, 0x15, 0x10, 0x05, 0⟩ = false ∧
      main none ["mov a, 5\n".toList] = .ok "0015\n1005\n".toList ∧
      main (some "-d".toList) ["mov a, 5\n".toList] = .ok "00000000: 0015 1005 \n".toList ∧
      main none ["mov a, 5".toList] = .ok "0015\n1005\n".toList := by
  decide

/-- C2: when the loop body succeeds on a line whose mnemonic (lower-cased, condition
suffix removed) is `mov` or `add` and whose first operand is a register name of index
`r`, it appends one instruction with `op = 0x00` for `mov`, `op = 0x12` for `add`, and
`out = (c << 4) | r`, where `c` is the condition code of the suffix, `c = 1` when the
mnemonic has no `.`; and `add.z c, a, word 1000` encodes `op = 0x12`, `out = 0x67`,
`imm16 = 1000`. -/
theorem C2_op_and_out (st st1 : State) (line : CStr) (label : Option CStr) (mn base : CStr)
    (ops : List CStr) (c r : Nat)
    (hsplit : SplitOpcode line MAX_OPERAND = (label, some (mn, ops)))
    (hcond : main.condition (ToLower mn) = .ok (base, c))
    (hbase : base = "mov".toList ∨ base = "add".toList)
    (hreg : RegNameToIndex (ops.getD 0 []) = (r : Int))
    (hrun : main.line st line = .ok st1) :
    (∃ i, st1.insn = st.insn ++ [i] ∧
      i.op = (if base = "mov".toList then 0x00 else 0x12) ∧
      i.out = (c <<< 4) ||| r) ∧
    ('.' ∉ mn → c = 1) ∧
    main.pass1 State.init ["add.z c, a, word 1000\n".toList] =
      .ok ⟨[⟨0x12, 0x67, 0x52, 0, 1000⟩], 3, [], []⟩ := by
  refine ⟨?_, ?_, by decide⟩
  · obtain ⟨base1, flag1, hc1, henc⟩ := line_ok st st1 line label mn ops hsplit hrun
    rw [hcond] at hc1
    injection hc1 with hc1
    injection hc1 with hb hf
    subst hb hf
    obtain ⟨i, hi, hop, hout, _⟩ := encode_op_out _ _ _ _ _ henc
    refine ⟨i, ?_, ?_, ?_⟩
    · simpa using hi
    · rw [hop]
      rcases hbase with hb | hb
      · subst hb; decide
      · subst hb; decide
    · rw [hout]
      unfold GetOperandReg
      rw [hreg]
      have hr : r < 16 := by
        rcases RegNameToIndex_range (ops.getD 0 []) with h | ⟨_, h⟩
        · rw [hreg] at h; omega
        · rw [hreg] at h; omega
      exact outByte_reg c r (condition_le _ _ _ hcond) hr
  · intro hdot
    unfold main.condition at hcond
    have hnone : strchr (ToLower mn) '.' = none := by
      unfold strchr
      have hall : ∀ d ∈ ToLower mn, (d != '.') = true := by
        intro d hd
        unfold ToLower at hd
        obtain ⟨e, he, rfl⟩ := List.mem_map.mp hd
        have : e ≠ '.' := fun h => hdot (h ▸ he)
        simp only [bne_iff_ne, ne_eq]
        exact fun hcon => this (toLower_eq_dot e hcon)
      rw [List.takeWhile_eq_self_iff.mpr hall]
      simp
    rw [hnone] at hcond
    injection hcond with hcond
    injection hcond with _ h2
    exact h2.symm

/-- C2, at concrete lines: `add.z c, a, word 1000` and `mov a, 5`. -/
theorem C2_op_and_out_witness :
    (∃ i, (⟨[⟨0x12, 0x67, 0x52, 0, 1000⟩], 3, [], []⟩ : State).insn = State.init.insn ++ [i] ∧
      i.op = (if "add".toList = "mov".toList then 0x00 else 0x12) ∧
      i.out = (6 <<< 4) ||| 7) ∧
    ('.' ∉ "add.z".toList → 6 = 1) ∧
    main.pass1 State.init ["add.z c, a, word 1000\n".toList] =
      .ok ⟨[⟨0x12, 0x67, 0x52, 0, 1000⟩], 3, [], []⟩ :=
  C2_op_and_out State.init ⟨[⟨0x12, 0x67, 0x52, 0, 1000⟩], 3, [], []⟩
    "add.z c, a, word 1000\n".toList none "add.z".toList "add".toList
    ["c".toList, "a".toList, "word 1000".toList] 6 7
    (by decide) (by decide) (by decide) (by decide) (by decide)

/-- A mnemonic without a `.` keeps its text and gets condition code 1. -/
theorem condition_no_suffix (m : CStr) (h : '.' ∉ m) : main.condition m = .ok (m, 1) := by
  unfold main.condition
  have hnone : strchr m '.' = none := by
    unfold strchr
    have hall : ∀ d ∈ m, (d != '.') = true := by
      intro d hd
      simp only [bne_iff_ne, ne_eq]
      exact fun e => h (e ▸ hd)
    rw [List.takeWhile_eq_self_iff.mpr hall]
    simp
  rw [hnone]

/-- C3: `FlagNameToBits` gives 0 for `nop`; 2, 4, 6, 8 for `c`, `v`, `z`, `s`; 3, 5, 7, 9
for `nc`, `nv`, `nz`, `ns`; a mnemonic without `.` gets code 1; a suffix other than
`nop` whose flag letter (the second character after a leading `n`, otherwise the first;
NUL past the end) is none of `c`, `v`, `z`, `s` is the fatal `unknown flag`; and every
code returned is at most 9, so below 16. -/
theorem C3_condition_codes (suffix m : CStr) (code : Nat) :
    FlagNameToBits "nop".toList = .ok 0 ∧
    (FlagNameToBits "c".toList = .ok 2 ∧ FlagNameToBits "v".toList = .ok 4 ∧
      FlagNameToBits "z".toList = .ok 6 ∧ FlagNameToBits "s".toList = .ok 8) ∧
    (FlagNameToBits "nc".toList = .ok 3 ∧ FlagNameToBits "nv".toList = .ok 5 ∧
      FlagNameToBits "nz".toList = .ok 7 ∧ FlagNameToBits "ns".toList = .ok 9) ∧
    ('.' ∉ m → main.condition m = .ok (m, 1)) ∧
    (suffix ≠ "nop".toList →
      (if charAt suffix 0 = 'n' then charAt suffix 1 else charAt suffix 0) ∉
        ['c', 'v', 'z', 's'] →
      FlagNameToBits suffix = .error .unknownFlag) ∧
    (FlagNameToBits suffix = .ok code → code ≤ 9 ∧ code < 16) := by
  refine ⟨by decide, by decide, by decide, condition_no_suffix m, ?_, ?_⟩
  · intro hnop hletter
    unfold FlagNameToBits
    by_cases hn : charAt suffix 0 = 'n'
    · have hop : suffix.drop 1 ≠ "op".toList := by
        intro hop
        apply hnop
        cases suffix with
        | nil => exact absurd hop (by decide)
        | cons a t =>
          have ha : a = 'n' := hn
          subst ha
          simp only [List.drop_succ_cons, List.drop_zero] at hop
          rw [hop]
          rfl
      simp only [hn, if_true] at hletter
      simp only [List.mem_cons, List.mem_singleton, List.not_mem_nil, or_false, not_or]
        at hletter
      obtain ⟨h1, h2, h3, h4⟩ := hletter
      simp only [hn, true_and, hop, if_false, if_true, h1, h2, h3, h4]
    · simp only [hn, if_false] at hletter
      simp only [List.mem_cons, List.mem_singleton, List.not_mem_nil, or_false, not_or]
        at hletter
      obtain ⟨h1, h2, h3, h4⟩ := hletter
      simp only [hn, false_and, if_false, h1, h2, h3, h4]
  · intro h
    have := FlagNameToBits_le suffix code h
    omega

/-- C3 at the suffixes `x` (fatal) and `nz` (code 7), and the mnemonic `mov`. -/
theorem C3_condition_codes_witness :
    main.condition "mov".toList = .ok ("mov".toList, 1) ∧
    FlagNameToBits "x".toList = .error .unknownFlag ∧
    (7 ≤ 9 ∧ 7 < 16) :=
  ⟨(C3_condition_codes "x".toList "mov".toList 7).2.2.2.1 (by decide),
   (C3_condition_codes "x".toList "mov".toList 7).2.2.2.2.1 (by decide) (by decide),
   (C3_condition_codes "nz".toList "mov".toList 7).2.2.2.2.2 (by decide)⟩

theorem reg_names_not_literal : ∀ n ∈ reg_names, strtol n = none := by decide

theorem literal_not_reg (value : CStr) (r : Int × CStr) (h : strtol value = some r) :
    RegNameToIndex value = -1 := by
  by_contra hne
  have := reg_names_not_literal value (RegNameToIndex_mem value hne)
  rw [this] at h
  exact absurd h (by simp)

theorem toU16_longToInt (v : Int) (h0 : 0 ≤ v) (h1 : v ≤ 65535) :
    toU16 (longToInt v) = v.toNat ∧ longToInt v = v := by
  have h : longToInt v = v := by
    unfold longToInt
    simp only
    split <;> omega
  rw [h]
  unfold toU16
  omega

/-- Resolution of an operand whose value token `strtol` converts entirely. -/
theorem GetOperandRegImm_literal (operand value : CStr) (pfx : Option CStr)
    (bps : List Backpatch) (idx : Nat) (v : Int)
    (htok : GetOperandRegImm.tokens operand = (pfx, some value))
    (hlit : strtol value = some (v, [])) :
    (pfx = none → 0 ≤ v → v ≤ 255 →
      GetOperandRegImm operand bps idx = .ok (⟨.kImm8, v.toNat⟩, bps)) ∧
    (pfx = none → 256 ≤ v → v ≤ 65535 →
      GetOperandRegImm operand bps idx = .ok (⟨.kImm16, v.toNat⟩, bps)) ∧
    (∀ p, pfx = some p → ToLower p = "byte".toList →
      GetOperandRegImm operand bps idx = .ok (⟨.kImm8, toU16 (longToInt v)⟩, bps) ∧
      (0 ≤ v → v ≤ 65535 → toU16 (longToInt v) = v.toNat)) ∧
    (∀ p, pfx = some p → ToLower p = "word".toList →
      GetOperandRegImm operand bps idx = .ok (⟨.kImm16, toU16 (longToInt v)⟩, bps) ∧
      (0 ≤ v → v ≤ 65535 → toU16 (longToInt v) = v.toNat)) := by
  have hreg : RegNameToIndex value = -1 := literal_not_reg value _ hlit
  refine ⟨?_, ?_, ?_, ?_⟩
  · intro hp h0 h1
    subst hp
    obtain ⟨e1, e2⟩ := toU16_longToInt v h0 (by omega)
    rw [e2] at e1
    unfold GetOperandRegImm
    rw [htok]
    simp only [hreg, hlit, e1, e2]
    simp [h0, h1]
  · intro hp h0 h1
    subst hp
    obtain ⟨e1, e2⟩ := toU16_longToInt v (by omega) h1
    rw [e2] at e1
    unfold GetOperandRegImm
    rw [htok]
    simp only [hreg, hlit, e1, e2]
    have : ¬ (0 ≤ v ∧ v ≤ 255) := by omega
    simp [this]
  · intro p hp hb
    subst hp
    refine ⟨?_, fun h0 h1 => (toU16_longToInt v h0 h1).1⟩
    have hnw : ¬ ("byte".toList = "word".toList) := by decide
    unfold GetOperandRegImm
    rw [htok]
    simp [hlit, hb, hnw]
  · intro p hp hb
    subst hp
    refine ⟨?_, fun h0 h1 => (toU16_longToInt v h0 h1).1⟩
    unfold GetOperandRegImm
    rw [htok]
    simp [hlit, hb]

theorem toU16_longToInt_mod (v : Int) : toU16 (longToInt v) = (v % 65536).toNat := by
  unfold toU16 longToInt
  simp only
  split <;> congr 1 <;> omega

/-- Resolution of an operand without size keyword whose value token `strtol` converts
entirely, whatever the value. -/
theorem GetOperandRegImm_bare (operand value : CStr) (bps : List Backpatch) (idx : Nat)
    (v : Int) (htok : GetOperandRegImm.tokens operand = (none, some value))
    (hlit : strtol value = some (v, [])) :
    GetOperandRegImm operand bps idx =
      .ok (⟨if 0 ≤ longToInt v ∧ longToInt v ≤ 255 then .kImm8 else .kImm16,
            toU16 (longToInt v)⟩, bps) := by
  have hreg : RegNameToIndex value = -1 := literal_not_reg value _ hlit
  unfold GetOperandRegImm
  rw [htok]
  simp [hreg, hlit]

/-- C4, as stated, fails: `word 65536` and `word 70000` are integer literals with a size
keyword, and their resolved values are 0 and 4464, not the literals; so is the bare
literal `70000`. -/
theorem C4_word_65536_is_zero :
    strtol "65536".toList = some (65536, []) ∧
    GetOperandRegImm "word 65536".toList [] 0 = .ok (⟨.kImm16, 0⟩, []) ∧
    strtol "70000".toList = some (70000, []) ∧
    GetOperandRegImm "word 70000".toList [] 0 = .ok (⟨.kImm16, 4464⟩, []) ∧
    GetOperandRegImm "70000".toList [] 0 = .ok (⟨.kImm16, 4464⟩, []) ∧
    ¬ (GetOperandRegImm "word 65536".toList [] 0 = .ok (⟨.kImm16, 65536⟩, [])) := by
  decide

/-- C4, amended: for an operand whose value token is an integer literal (`strtol` converts
all of it, to `v`): without a size keyword the operand resolves to a byte-sized immediate
when `0 ≤ v ≤ 255` and to a word-sized one when `256 ≤ v ≤ 65535`; with the keyword `byte`
or `word` in any letter case it resolves to the keyword's kind whatever `v` is; in all
cases the backpatch list is returned unchanged and the resolved value is the low 16 bits
of `v` (`v mod 65536`), which is `v` itself exactly when `0 ≤ v ≤ 65535`. So `word 5`
resolves to a word-sized immediate of value 5, `word 65536` to value 0 and `word 70000`
to value 4464. -/
theorem C4_literal_kinds (operand value : CStr) (pfx : Option CStr) (bps : List Backpatch)
    (idx : Nat) (v : Int)
    (htok : GetOperandRegImm.tokens operand = (pfx, some value))
    (hlit : strtol value = some (v, [])) :
    (pfx = none → 0 ≤ v → v ≤ 255 →
      GetOperandRegImm operand bps idx = .ok (⟨.kImm8, v.toNat⟩, bps)) ∧
    (pfx = none → 256 ≤ v → v ≤ 65535 →
      GetOperandRegImm operand bps idx = .ok (⟨.kImm16, v.toNat⟩, bps)) ∧
    (∀ p, pfx = some p → ToLower p = "byte".toList →
      GetOperandRegImm operand bps idx = .ok (⟨.kImm8, toU16 (longToInt v)⟩, bps) ∧
      (0 ≤ v → v ≤ 65535 → toU16 (longToInt v) = v.toNat)) ∧
    (∀ p, pfx = some p → ToLower p = "word".toList →
      GetOperandRegImm operand bps idx = .ok (⟨.kImm16, toU16 (longToInt v)⟩, bps) ∧
      (0 ≤ v → v ≤ 65535 → toU16 (longToInt v) = v.toNat)) ∧
    GetOperandRegImm "word 5".toList bps idx = .ok (⟨.kImm16, 5⟩, bps) ∧
    (toU16 (longToInt v) = (v % 65536).toNat ∧
      (((toU16 (longToInt v) : Nat) : Int) = v ↔ 0 ≤ v ∧ v ≤ 65535)) ∧
    (pfx = none →
      GetOperandRegImm operand bps idx =
        .ok (⟨if 0 ≤ longToInt v ∧ longToInt v ≤ 255 then .kImm8 else .kImm16,
              toU16 (longToInt v)⟩, bps)) ∧
    GetOperandRegImm "word 65536".toList bps idx = .ok (⟨.kImm16, 0⟩, bps) ∧
    GetOperandRegImm "word 70000".toList bps idx = .ok (⟨.kImm16, 4464⟩, bps) := by
  obtain ⟨h1, h2, h3, h4⟩ := GetOperandRegImm_literal operand value pfx bps idx v htok hlit
  refine ⟨h1, h2, h3, h4, ?_, ⟨toU16_longToInt_mod v, ?_⟩, ?_, ?_, ?_⟩
  · exact ((GetOperandRegImm_literal "word 5".toList "5".toList (some "word".toList) bps idx 5
      (by decide) (by decide)).2.2.2 "word".toList rfl (by decide)).1
  · rw [toU16_longToInt_mod]
    omega
  · intro hp
    subst hp
    exact GetOperandRegImm_bare operand value bps idx v htok hlit
  · exact ((GetOperandRegImm_literal "word 65536".toList "65536".toList (some "word".toList)
      bps idx 65536 (by decide) (by decide)).2.2.2 "word".toList rfl (by decide)).1
  · exact ((GetOperandRegImm_literal "word 70000".toList "70000".toList (some "word".toList)
      bps idx 70000 (by decide) (by decide)).2.2.2 "word".toList rfl (by decide)).1

/-- C4 (amended) at the operands `5`, `0x1F4`, `BYTE 077`, `Word 5` and `word 70000`. -/
theorem C4_literal_kinds_witness :
    GetOperandRegImm "5".toList [] 0 = .ok (⟨.kImm8, 5⟩, []) ∧
    GetOperandRegImm "0x1F4".toList [] 0 = .ok (⟨.kImm16, 500⟩, []) ∧
    GetOperandRegImm "BYTE 077".toList [] 0 = .ok (⟨.kImm8, 63⟩, []) ∧
    GetOperandRegImm "Word 5".toList [] 0 = .ok (⟨.kImm16, 5⟩, []) ∧
    GetOperandRegImm "word 70000".toList [] 0 = .ok (⟨.kImm16, 4464⟩, []) :=
  ⟨(C4_literal_kinds "5".toList "5".toList none [] 0 5 (by decide) (by decide)).1
      rfl (by decide) (by decide),
   (C4_literal_kinds "0x1F4".toList "0x1F4".toList none [] 0 500 (by decide) (by decide)).2.1
      rfl (by decide) (by decide),
   ((C4_literal_kinds "BYTE 077".toList "077".toList (some "BYTE".toList) [] 0 63
      (by decide) (by decide)).2.2.1 "BYTE".toList rfl (by decide)).1,
   ((C4_literal_kinds "Word 5".toList "5".toList (some "Word".toList) [] 0 5
      (by decide) (by decide)).2.2.2.1 "Word".toList rfl (by decide)).1,
   ((C4_literal_kinds "word 70000".toList "70000".toList (some "word".toList) [] 0 70000
      (by decide) (by decide)).2.2.2.1 "word".toList rfl (by decide)).1⟩

/-- Resolution of an operand whose value token is no register name and on which `strtol`
converts nothing. -/
theorem GetOperandRegImm_label (operand value : CStr) (pfx : Option CStr)
    (bps : List Backpatch) (idx : Nat)
    (htok : GetOperandRegImm.tokens operand = (pfx, some value))
    (hreg : RegNameToIndex value = -1)
    (hlit : strtol value = none) :
    (pfx = none → GetOperandRegImm operand bps idx = .error .prefixRequired) ∧
    (∀ p, pfx = some p → ToLower p = "byte".toList →
      GetOperandRegImm operand bps idx =
        .ok (⟨.kImm8, 0⟩, bps ++ [⟨idx, value, .BP_ABS8⟩])) ∧
    (∀ p, pfx = some p → ToLower p = "word".toList →
      GetOperandRegImm operand bps idx =
        .ok (⟨.kImm16, 0⟩, bps ++ [⟨idx, value, .BP_ABS16⟩])) := by
  refine ⟨?_, ?_, ?_⟩
  · intro hp
    subst hp
    unfold GetOperandRegImm
    rw [htok]
    simp [hreg, hlit]
  · intro p hp hb
    subst hp
    have hnw : ¬ ("byte".toList = "word".toList) := by decide
    unfold GetOperandRegImm
    rw [htok]
    simp [hlit, hb, hnw]
  · intro p hp hb
    subst hp
    unfold GetOperandRegImm
    rw [htok]
    simp [hlit, hb]

/-- C5: for an operand whose value token is not a register name and on which `strtol`
converts nothing: without a size keyword `GetOperandRegImm` is fatal (`prefix must be
given for a label`); after the keyword `byte` or `word` (any letter case) it returns an
immediate of the keyword's kind with value 0 and the backpatch list extended at its end
by the one entry (current instruction index, the token, `BP_ABS8` for `byte` and
`BP_ABS16` for `word`). -/
theorem C5_label_operand (operand value : CStr) (pfx : Option CStr) (bps : List Backpatch)
    (idx : Nat)
    (htok : GetOperandRegImm.tokens operand = (pfx, some value))
    (hreg : RegNameToIndex value = -1)
    (hlit : strtol value = none) :
    (pfx = none → GetOperandRegImm operand bps idx = .error .prefixRequired) ∧
    (∀ p, pfx = some p → ToLower p = "byte".toList →
      GetOperandRegImm operand bps idx =
        .ok (⟨.kImm8, 0⟩, bps ++ [⟨idx, value, .BP_ABS8⟩])) ∧
    (∀ p, pfx = some p → ToLower p = "word".toList →
      GetOperandRegImm operand bps idx =
        .ok (⟨.kImm16, 0⟩, bps ++ [⟨idx, value, .BP_ABS16⟩])) :=
  GetOperandRegImm_label operand value pfx bps idx htok hreg hlit

/-- C5 at the operands `loop`, `byte loop` and `WORD loop`, with one backpatch pending. -/
theorem C5_label_operand_witness :
    GetOperandRegImm "loop".toList [⟨0, "x".toList, .BP_ABS8⟩] 3 = .error .prefixRequired ∧
    GetOperandRegImm "byte loop".toList [⟨0, "x".toList, .BP_ABS8⟩] 3 =
      .ok (⟨.kImm8, 0⟩, [⟨0, "x".toList, .BP_ABS8⟩] ++ [⟨3, "loop".toList, .BP_ABS8⟩]) ∧
    GetOperandRegImm "WORD loop".toList [⟨0, "x".toList, .BP_ABS8⟩] 3 =
      .ok (⟨.kImm16, 0⟩, [⟨0, "x".toList, .BP_ABS8⟩] ++ [⟨3, "loop".toList, .BP_ABS16⟩]) :=
  ⟨(C5_label_operand "loop".toList "loop".toList none _ 3 (by decide) (by decide)
      (by decide)).1 rfl,
   (C5_label_operand "byte loop".toList "loop".toList (some "byte".toList) _ 3 (by decide)
      (by decide) (by decide)).2.1 "byte".toList rfl (by decide),
   (C5_label_operand "WORD loop".toList "loop".toList (some "WORD".toList) _ 3 (by decide)
      (by decide) (by decide)).2.2 "WORD".toList rfl (by decide)⟩

theorem nibbles (a b : Nat) (ha : a < 16) (hb : b < 16) :
    ((a <<< 4) ||| b) % 256 = (a <<< 4) ||| b ∧ ((a <<< 4) ||| b) / 16 = a ∧
      ((a <<< 4) ||| b) % 16 = b ∧
      (((a <<< 4) ||| b) &&& 0xf0 = 0x20 ↔ a = 2) ∧
      (((a <<< 4) ||| b) &&& 0x0f = 0x02 ↔ b = 2) := by
  have key : ∀ a b : Fin 16,
      ((a.val <<< 4) ||| b.val) % 256 = (a.val <<< 4) ||| b.val ∧
      ((a.val <<< 4) ||| b.val) / 16 = a.val ∧
      ((a.val <<< 4) ||| b.val) % 16 = b.val ∧
      (((a.val <<< 4) ||| b.val) &&& 0xf0 = 0x20 ↔ a.val = 2) ∧
      (((a.val <<< 4) ||| b.val) &&& 0x0f = 0x02 ↔ b.val = 2) := by decide
  exact key ⟨a, ha⟩ ⟨b, hb⟩

theorem reg_names_tokens : ∀ n ∈ reg_names, GetOperandRegImm.tokens n = (none, some n) := by
  decide

/-- An operand that is exactly one of the 16 register names resolves to that register. -/
theorem GetOperandRegImm_reg (name : CStr) (hn : name ∈ reg_names) (bps : List Backpatch)
    (idx : Nat) :
    ∃ r : Nat, r < 16 ∧ RegNameToIndex name = (r : Int) ∧
      GetOperandRegImm name bps idx = .ok (⟨.kReg, r⟩, bps) := by
  have hne := reg_names_found name hn
  rcases RegNameToIndex_range name with h | ⟨h0, h1⟩
  · exact absurd h hne
  · refine ⟨(RegNameToIndex name).toNat, by omega, by omega, ?_⟩
    unfold GetOperandRegImm
    rw [reg_names_tokens name hn]
    simp only [hne, ne_eq, not_false_eq_true, and_self, if_true]
    unfold toU16
    congr 3
    omega

/-- C7, as stated, fails: in `add a, ir3, a` both sources are registers, yet the `in` byte
`0x25` has high nibble 2, so the emitter prints the `imm16` word and advances its
address counter by 3. -/
theorem C7_ir3_emits_imm16 :
    main.pass1 State.init ["add a, ir3, a\n".toList] =
        .ok ⟨[⟨0x12, 0x15, 0x25, 0, 0⟩], 2, [], []⟩ ∧
      main.hasImm16 ⟨0x12, 0x15, 0x25, 0, 0⟩ = true ∧
      (main.emitInsn true 0 ⟨0x12, 0x15, 0x25, 0, 0⟩).2 = 3 ∧
      main none ["add a, ir3, a\n".toList] = .ok "1215\n2500\n0000\n".toList := by
  decide

/-- C7, amended: for an `add` whose two sources are registers of indices `i1`, `i2`
(below 16), `SetInput` sets `in = (i1 << 4) | i2`, whose nibbles are `i1` and `i2`, and
leaves `imm8` and `imm16` as they were; when neither index is 2 (`ir3`) the emitter's
width test is false, it prints the two 16-bit words only and advances the address counter
by 2; when either index is 2 the width test holds, the `imm16` word is printed too and
the counter advances by 3. Each of the 16 register names resolves to a register operand
of index below 16. -/
theorem C7_add_reg_reg (insn : Instruction) (in1 in2 : RegImm) (debug : Bool) (pc : Int)
    (h1 : in1.kind = .kReg) (h2 : in2.kind = .kReg) (hv1 : in1.val < 16)
    (hv2 : in2.val < 16) :
    (SetInput insn in1 (some in2)).1.in_ = (in1.val <<< 4) ||| in2.val ∧
    (SetInput insn in1 (some in2)).1.in_ / 16 = in1.val ∧
    (SetInput insn in1 (some in2)).1.in_ % 16 = in2.val ∧
    (SetInput insn in1 (some in2)).1.imm8 = insn.imm8 ∧
    (SetInput insn in1 (some in2)).1.imm16 = insn.imm16 ∧
    (in1.val ≠ 2 → in2.val ≠ 2 →
      main.hasImm16 (SetInput insn in1 (some in2)).1 = false ∧
      (main.emitInsn debug pc (SetInput insn in1 (some in2)).1).2 = pc + 2 ∧
      (main.emitInsn false pc (SetInput insn in1 (some in2)).1).1 =
        printfHex true 2 insn.op ++ printfHex true 2 insn.out ++ ['\n'] ++
          (printfHex true 2 ((in1.val <<< 4) ||| in2.val) ++ printfHex true 2 insn.imm8 ++
            ['\n'])) ∧
    (in1.val = 2 ∨ in2.val = 2 →
      main.hasImm16 (SetInput insn in1 (some in2)).1 = true ∧
      (main.emitInsn debug pc (SetInput insn in1 (some in2)).1).2 = pc + 3) ∧
    (∀ name ∈ reg_names, ∀ bps idx, ∃ r : Nat, r < 16 ∧
      GetOperandRegImm name bps idx = .ok (⟨.kReg, r⟩, bps)) := by
  obtain ⟨n1, n2, n3, n4, n5⟩ := nibbles in1.val in2.val hv1 hv2
  have hs : (SetInput insn in1 (some in2)).1 =
      { insn with in_ := (in1.val <<< 4) ||| in2.val } := by
    unfold SetInput
    simp only [h1, h2, and_self, if_true, n1]
  rw [hs]
  refine ⟨rfl, n2, n3, rfl, rfl, ?_, ?_, ?_⟩
  · intro ha hb
    have hf : main.hasImm16 { insn with in_ := (in1.val <<< 4) ||| in2.val } = false := by
      unfold main.hasImm16
      simp only [Bool.or_eq_false_iff, decide_eq_false_iff_not]
      exact ⟨fun h => ha (n4.mp h), fun h => hb (n5.mp h)⟩
    refine ⟨hf, ?_, ?_⟩
    · unfold main.emitInsn
      simp [hf]
    · unfold main.emitInsn
      simp [hf]
  · intro hab
    have ht : main.hasImm16 { insn with in_ := (in1.val <<< 4) ||| in2.val } = true := by
      unfold main.hasImm16
      simp only [Bool.or_eq_true, decide_eq_true_eq]
      rcases hab with h | h
      · exact Or.inl (n4.mpr h)
      · exact Or.inr (n5.mpr h)
    refine ⟨ht, ?_⟩
    unfold main.emitInsn
    simp [ht]
    ring
  · intro name hn bps idx
    obtain ⟨r, hr, _, hg⟩ := GetOperandRegImm_reg name hn bps idx
    exact ⟨r, hr, hg⟩

/-- C7 (amended) at `add a, b, c`'s sources (indices 6 and 7). -/
theorem C7_add_reg_reg_witness :
    (SetInput Instruction.zero ⟨.kReg, 6⟩ (some ⟨.kReg, 7⟩)).1.in_ = 0x67 ∧
    main.hasImm16 (SetInput Instruction.zero ⟨.kReg, 6⟩ (some ⟨.kReg, 7⟩)).1 = false ∧
    (main.emitInsn true 0 (SetInput Instruction.zero ⟨.kReg, 6⟩ (some ⟨.kReg, 7⟩)).1).2
      = 0 + 2 :=
  ⟨(C7_add_reg_reg Instruction.zero ⟨.kReg, 6⟩ ⟨.kReg, 7⟩ true 0 rfl rfl (by decide)
      (by decide)).1,
   ((C7_add_reg_reg Instruction.zero ⟨.kReg, 6⟩ ⟨.kReg, 7⟩ true 0 rfl rfl (by decide)
      (by decide)).2.2.2.2.2.1 (by decide) (by decide)).1,
   ((C7_add_reg_reg Instruction.zero ⟨.kReg, 6⟩ ⟨.kReg, 7⟩ true 0 rfl rfl (by decide)
      (by decide)).2.2.2.2.2.1 (by decide) (by decide)).2.1⟩

theorem SetInput_neg_one (insn : Instruction) (in1 in2 : RegImm) :
    (SetInput insn in1 (some in2)).2 = -1 ↔ in1.kind = .kImm16 ∧ in2.kind = .kImm16 := by
  obtain ⟨k1, v1⟩ := in1
  obtain ⟨k2, v2⟩ := in2
  cases k1 <;> cases k2 <;> simp [SetInput, RegImmKind.toNat]

/-- The `add` branch of `main.encode` once both source operands are resolved. -/
theorem encode_add_eq (st : State) (flag : Nat) (ops : List CStr) (in1 in2 : RegImm)
    (bps1 bps2 : List Backpatch) (h0 : st.insn.length < 1024) (hops : 2 < ops.length)
    (hg1 : GetOperandRegImm (ops.getD 1 []) st.backpatches st.insn.length = .ok (in1, bps1))
    (hg2 : GetOperandRegImm (ops.getD 2 []) bps1 st.insn.length = .ok (in2, bps2))
    (hb1 : bps1.length ≤ 128) (hb2 : bps2.length ≤ 128) :
    main.encode st "add".toList flag ops =
      if (SetInput (opcodeOut 0x12 flag ops) in1 (some in2)).2 = -1 then .error .bothImm16
      else .ok { st with
        insn := st.insn ++ [(SetInput (opcodeOut 0x12 flag ops) in1 (some in2)).1],
        pc := st.pc + (SetInput (opcodeOut 0x12 flag ops) in1 (some in2)).2,
        backpatches := bps2 } := by
  unfold main.encode
  rw [if_pos rfl, if_neg (by omega)]
  unfold GetOperand
  rw [if_neg (by omega), if_neg (by omega), if_neg (by omega)]
  simp only
  rw [hg1]
  simp only
  rw [if_neg (by omega), hg2]
  simp only
  rw [if_neg (by omega)]
  rfl

/-- C8: `SetInput` on two source operands returns -1 exactly when both are word-sized
immediates; the `add` branch of `main`, once both sources are resolved, stops with the
fatal `both literals are imm16` exactly in that case and appends an instruction
otherwise; and the program given `add a, word 1, word 2` stops with that error, so
prints nothing, in either output mode. -/
theorem C8_both_word_fatal (insn : Instruction) (st : State) (flag : Nat) (ops : List CStr)
    (in1 in2 : RegImm) (bps1 bps2 : List Backpatch) (argv1 : Option CStr)
    (h0 : st.insn.length < 1024) (hops : 2 < ops.length)
    (hg1 : GetOperandRegImm (ops.getD 1 []) st.backpatches st.insn.length = .ok (in1, bps1))
    (hg2 : GetOperandRegImm (ops.getD 2 []) bps1 st.insn.length = .ok (in2, bps2))
    (hb1 : bps1.length ≤ 128) (hb2 : bps2.length ≤ 128) :
    ((SetInput insn in1 (some in2)).2 = -1 ↔ in1.kind = .kImm16 ∧ in2.kind = .kImm16) ∧
    (main.encode st "add".toList flag ops = .error .bothImm16 ↔
      in1.kind = .kImm16 ∧ in2.kind = .kImm16) ∧
    (¬ (in1.kind = .kImm16 ∧ in2.kind = .kImm16) →
      ∃ st1, main.encode st "add".toList flag ops = .ok st1) ∧
    main argv1 ["add a, word 1, word 2\n".toList] = .error .bothImm16 := by
  have henc := encode_add_eq st flag ops in1 in2 bps1 bps2 h0 hops hg1 hg2 hb1 hb2
  have hiff := SetInput_neg_one (opcodeOut 0x12 flag ops) in1 in2
  refine ⟨SetInput_neg_one insn in1 in2, ?_, ?_, ?_⟩
  · constructor
    · intro h
      by_contra hn
      rw [henc, if_neg (fun hc => hn (hiff.mp hc))] at h
      exact absurd h (by simp)
    · intro h
      rw [henc, if_pos (hiff.mpr h)]
  · intro hn
    rw [henc, if_neg (fun hc => hn (hiff.mp hc))]
    exact ⟨_, rfl⟩
  · have hp : main.pass1 State.init ["add a, word 1, word 2\n".toList] = .error .bothImm16 := by
      decide
    unfold main
    rw [hp]

/-- C8 at the operands of `add a, word 1, word 2`, from the initial state. -/
theorem C8_both_word_fatal_witness :
    ((SetInput Instruction.zero ⟨.kImm16, 1⟩ (some ⟨.kImm16, 2⟩)).2 = -1 ↔
      RegImmKind.kImm16 = .kImm16 ∧ RegImmKind.kImm16 = .kImm16) ∧
    main.encode State.init "add".toList 1 ["a".toList, "word 1".toList, "word 2".toList] =
      .error .bothImm16 ∧
    main none ["add a, word 1, word 2\n".toList] = .error .bothImm16 :=
  ⟨(C8_both_word_fatal Instruction.zero State.init 1
      ["a".toList, "word 1".toList, "word 2".toList] ⟨.kImm16, 1⟩ ⟨.kImm16, 2⟩ [] [] none
      (by decide) (by decide) (by decide) (by decide) (by decide) (by decide)).1,
   (C8_both_word_fatal Instruction.zero State.init 1
      ["a".toList, "word 1".toList, "word 2".toList] ⟨.kImm16, 1⟩ ⟨.kImm16, 2⟩ [] [] none
      (by decide) (by decide) (by decide) (by decide) (by decide) (by decide)).2.1.mpr
      ⟨rfl, rfl⟩,
   (C8_both_word_fatal Instruction.zero State.init 1
      ["a".toList, "word 1".toList, "word 2".toList] ⟨.kImm16, 1⟩ ⟨.kImm16, 2⟩ [] [] none
      (by decide) (by decide) (by decide) (by decide) (by decide) (by decide)).2.2.2⟩

/-- C9 fails on the code: a destination that is no register name is not rejected.
`RegNameToIndex` returns -1, `main` ors it into the `out` byte, which becomes `0xFF`
whatever the condition code, and the line `mov x, 5` is assembled and printed. -/
theorem C9_unknown_destination_is_encoded :
    RegNameToIndex "x".toList = -1 ∧
    (∀ c : Fin 10, main.outByte c.val (-1) = 0xFF) ∧
    main.pass1 State.init ["mov x, 5\n".toList] =
      .ok ⟨[⟨0x00, 0xFF, 0x10, 0x05, 0⟩], 1, [], []⟩ ∧
    main none ["mov x, 5\n".toList] = .ok "00FF\n1005\n".toList ∧
    main none ["add 7, a, b\n".toList] = .ok "12FF\n5600\n".toList := by
  decide

/-- C10, as stated, fails: `A` is a re-casing of the table name `a`, but
`RegNameToIndex` returns -1 for it and 5 for `a`. -/
theorem C10_upper_case_not_found :
    ¬ (∀ name ∈ reg_names, ∀ s : CStr, ToLower s = name →
        RegNameToIndex s = RegNameToIndex name) := by
  intro h
  have h1 := h "a".toList (by decide) "A".toList (by decide)
  exact absurd h1 (by decide)

/-- C10, amended: register-name resolution is an exact, case-sensitive match. Every
name of the table resolves to its own index, in 0..15; a string that is not literally in the
table resolves to -1, in particular every re-casing of a table name that differs from
it (such as `A`, `Flag`, `IR1`) and every string that matches no table name
case-insensitively; `GetOperandReg` is `RegNameToIndex`. -/
theorem C10_exact_match (s : CStr) :
    (s ∈ reg_names → 0 ≤ RegNameToIndex s ∧ RegNameToIndex s < 16) ∧
    (s ∉ reg_names → RegNameToIndex s = -1) ∧
    (∀ name ∈ reg_names, ToLower s = name → s ≠ name → RegNameToIndex s = -1) ∧
    ((∀ name ∈ reg_names, ToLower s ≠ ToLower name) → RegNameToIndex s = -1) ∧
    GetOperandReg s = RegNameToIndex s ∧
    (RegNameToIndex "A".toList = -1 ∧ RegNameToIndex "Flag".toList = -1 ∧
      RegNameToIndex "IR1".toList = -1) ∧
    (∀ i : Fin 16, RegNameToIndex (reg_names.getD i.val []) = (i.val : Int)) := by
  refine ⟨?_, RegNameToIndex_not_mem s, ?_, ?_, rfl, by decide, by decide⟩
  · intro hs
    rcases RegNameToIndex_range s with h | h
    · exact absurd h (reg_names_found s hs)
    · exact h
  · intro name hn hlow hne
    apply RegNameToIndex_not_mem
    intro hs
    exact hne (by rw [← hlow, reg_names_lower s hs])
  · intro hall
    apply RegNameToIndex_not_mem
    intro hs
    exact hall s hs rfl

/-- C10 (amended) at `a` (found), `x` (not in the table) and `A` (a re-casing). -/
theorem C10_exact_match_witness :
    (0 ≤ RegNameToIndex "a".toList ∧ RegNameToIndex "a".toList < 16) ∧
    RegNameToIndex "x".toList = -1 ∧
    RegNameToIndex "A".toList = -1 :=
  ⟨(C10_exact_match "a".toList).1 (by decide),
   (C10_exact_match "x".toList).2.1 (by decide),
   (C10_exact_match "A".toList).2.2.1 "a".toList (by decide) (by decide) (by decide)⟩

theorem toU16_lt (v : Int) : toU16 v < 65536 := by
  unfold toU16
  omega

/-- What a successful `GetOperandRegImm` returns: a 16-bit value; for a register an index
below 16 and the backpatch list untouched; for an immediate either the list untouched or
extended by one entry for the current instruction, `BP_ABS8` exactly for a byte-sized
result. -/
theorem GetOperandRegImm_ok (operand : CStr) (bps bps1 : List Backpatch) (idx : Nat)
    (ri : RegImm) (h : GetOperandRegImm operand bps idx = .ok (ri, bps1)) :
    ri.val < 65536 ∧ (ri.kind = .kReg → ri.val < 16 ∧ bps1 = bps) ∧
    (bps1 = bps ∨
      ∃ L, ri.kind ≠ .kReg ∧ ri.val = 0 ∧
        bps1 = bps ++ [⟨idx, L, if ri.kind = .kImm8 then .BP_ABS8 else .BP_ABS16⟩]) := by
  unfold GetOperandRegImm at h
  split at h
  · exact absurd h (by simp)
  · rename_i pfx value _
    by_cases hreg : pfx = none ∧ RegNameToIndex value ≠ -1
    · rw [if_pos hreg] at h
      injection h with h
      injection h with h1 h2
      subst h1 h2
      rcases RegNameToIndex_range value with hr | ⟨hr0, hr1⟩
      · exact absurd hr hreg.2
      · refine ⟨toU16_lt _, fun _ => ⟨?_, rfl⟩, Or.inl rfl⟩
        show toU16 (RegNameToIndex value) < 16
        unfold toU16
        omega
    · rw [if_neg hreg] at h
      simp only at h
      split at h
      · exact absurd h (by simp)
      · rename_i kind hkind
        split at h
        · by_cases hp : pfx = none
          · rw [if_pos hp] at h
            exact absurd h (by simp)
          · rw [if_neg hp] at h
            injection h with h
            injection h with h1 h2
            subst h1 h2
            have hk : kind ≠ .kReg := by
              intro hk
              subst hk
              cases pfx with
              | none => exact hp rfl
              | some p =>
                simp only at hkind
                split at hkind
                · exact absurd hkind (by simp)
                · split at hkind <;> exact absurd hkind (by simp)
            exact ⟨Nat.zero_lt_succ _, fun hc => absurd hc hk, Or.inr ⟨value, hk, rfl, rfl⟩⟩
        · rename_i v endptr _
          by_cases he : endptr ≠ []
          · rw [if_pos he] at h
            exact absurd h (by simp)
          · rw [if_neg he] at h
            by_cases hp : pfx = none
            · rw [if_pos hp] at h
              injection h with h
              injection h with h1 h2
              subst h1 h2
              refine ⟨toU16_lt _, fun hc => ?_, Or.inl rfl⟩
              exfalso
              simp only at hc
              split at hc <;> exact absurd hc (by simp)
            · rw [if_neg hp] at h
              injection h with h
              injection h with h1 h2
              subst h1 h2
              refine ⟨toU16_lt _, fun hc => ?_, Or.inl rfl⟩
              exfalso
              simp only at hc
              subst hc
              cases pfx with
              | none => exact hp rfl
              | some p =>
                simp only at hkind
                split at hkind
                · exact absurd hkind (by simp)
                · split at hkind <;> exact absurd hkind (by simp)

/-- A successful `main.patch`: the label is found (first match), a byte target fits,
and exactly the target entry is rewritten. -/
theorem patch_ok (labels : List LabelAddr) (insn insn1 : List Instruction) (bp : Backpatch)
    (h : main.patch labels insn bp = .ok insn1) :
    ∃ l, labels.find? (fun l => decide (bp.label = l.label)) = some l ∧
      (bp.type = .BP_ABS8 → l.pc < 256) ∧ insn1.length = insn.length ∧
      ∀ k, insn1[k]? =
        (insn[k]?).map (fun t => if bp.insn_idx = k then patched bp l.pc t else t) := by
  unfold main.patch at h
  split at h
  · exact absurd h (by simp)
  · rename_i l hl
    refine ⟨l, hl, ?_⟩
    cases hty : bp.type with
    | BP_ABS16 =>
      rw [hty] at h
      simp only at h
      injection h with h
      subst h
      refine ⟨fun hc => absurd hc (by simp), ?_, ?_⟩
      · split <;> simp
      · intro k
        cases hget : insn[bp.insn_idx]? with
        | none =>
          simp only
          by_cases hk : bp.insn_idx = k
          · subst hk; simp [hget]
          · cases insn[k]? <;> simp [hk]
        | some t =>
          simp only
          rw [List.getElem?_set]
          by_cases hk : bp.insn_idx = k
          · subst hk
            have hlt : bp.insn_idx < insn.length := by
              by_contra hc
              rw [List.getElem?_eq_none (by omega)] at hget
              exact absurd hget (by simp)
            simp [hlt, hget, patched, hty]
          · cases insn[k]? <;> simp [hk]
    | BP_ABS8 =>
      rw [hty] at h
      simp only at h
      by_cases hbig : 256 ≤ l.pc
      · rw [if_pos hbig] at h
        exact absurd h (by simp)
      · rw [if_neg hbig] at h
        injection h with h
        subst h
        refine ⟨fun _ => by omega, ?_, ?_⟩
        · split <;> simp
        · intro k
          cases hget : insn[bp.insn_idx]? with
          | none =>
            simp only
            by_cases hk : bp.insn_idx = k
            · subst hk; simp [hget]
            · cases insn[k]? <;> simp [hk]
          | some t =>
            simp only
            rw [List.getElem?_set]
            by_cases hk : bp.insn_idx = k
            · subst hk
              have hlt : bp.insn_idx < insn.length := by
                by_contra hc
                rw [List.getElem?_eq_none (by omega)] at hget
                exact absurd hget (by simp)
              simp [hlt, hget, patched, hty]
            · cases insn[k]? <;> simp [hk]

/-- Pass 2 on a concatenation is pass 2 on the first part, then on the second. -/
theorem pass2_append (labels : List LabelAddr) (A B : List Backpatch) :
    ∀ (insn insn2 : List Instruction),
      main.pass2 labels (A ++ B) insn = .ok insn2 →
      ∃ mid, main.pass2 labels A insn = .ok mid ∧ main.pass2 labels B mid = .ok insn2 := by
  induction A with
  | nil => intro insn insn2 h; exact ⟨insn, rfl, h⟩
  | cons a A ih =>
    intro insn insn2 h
    simp only [List.cons_append] at h
    unfold main.pass2 at h
    cases hp : main.patch labels insn a with
    | error e => rw [hp] at h; exact absurd h (by simp)
    | ok insn1 =>
      rw [hp] at h
      simp only at h
      obtain ⟨mid, h1, h2⟩ := ih insn1 insn2 h
      refine ⟨mid, ?_, h2⟩
      simp only [main.pass2, hp]
      exact h1

/-- Frame rule of pass 2: the table keeps its length, and a field `f` of the entry at
index `k` is unchanged when no backpatch for `k` writes to `f`. -/
theorem pass2_frame {α : Type} (f : Instruction → α) (labels : List LabelAddr) (k : Nat)
    (bps : List Backpatch) :
    ∀ (insn insn2 : List Instruction), main.pass2 labels bps insn = .ok insn2 →
      (∀ b ∈ bps, b.insn_idx = k → ∀ addr t, f (patched b addr t) = f t) →
      insn2.length = insn.length ∧ (insn2[k]?).map f = (insn[k]?).map f := by
  induction bps with
  | nil =>
    intro insn insn2 h _
    unfold main.pass2 at h
    injection h with h
    subst h
    exact ⟨rfl, rfl⟩
  | cons b bs ih =>
    intro insn insn2 h hf
    unfold main.pass2 at h
    cases hp : main.patch labels insn b with
    | error e => rw [hp] at h; exact absurd h (by simp)
    | ok insn1 =>
      rw [hp] at h
      simp only at h
      obtain ⟨l, _, _, hlen, hget⟩ := patch_ok labels insn insn1 b hp
      obtain ⟨hlen2, hget2⟩ := ih insn1 insn2 h (fun c hc => hf c (List.mem_cons_of_mem _ hc))
      refine ⟨by omega, ?_⟩
      rw [hget2, hget k]
      cases insn[k]? with
      | none => rfl
      | some t =>
        simp only [Option.map_some']
        by_cases hk : b.insn_idx = k
        · rw [if_pos hk, hf b (List.mem_cons_self _ _) hk]
        · rw [if_neg hk]

theorem SetInput_len (insn : Instruction) (in1 : RegImm) (in2 : Option RegImm) :
    (SetInput insn in1 in2).2 = -1 ∨
      (1 ≤ (SetInput insn in1 in2).2 ∧ (SetInput insn in1 in2).2 ≤ 3) := by
  obtain ⟨k1, v1⟩ := in1
  cases in2 with
  | none => cases k1 <;> simp [SetInput, RegImmKind.toNat]
  | some in2 =>
    obtain ⟨k2, v2⟩ := in2
    cases k1 <;> cases k2 <;> simp [SetInput, RegImmKind.toNat]

/-- Success of the loop body on any line, unfolded. -/
theorem line_cases (st st1 : State) (line : CStr) (h : main.line st line = .ok st1) :
    ∃ st0 : State, st0.insn = st.insn ∧ st0.pc = st.pc ∧ st0.backpatches = st.backpatches ∧
      (st0.labels = st.labels ∨ st0.labels = st.labels ++ [⟨(SplitOpcode line MAX_OPERAND).1.getD [], st.pc⟩]) ∧
      (st1 = st0 ∨
        ∃ mn ops base flag, (SplitOpcode line MAX_OPERAND).2 = some (mn, ops) ∧
          main.condition (ToLower mn) = .ok (base, flag) ∧
          main.encode st0 base flag ops = .ok st1) := by
  unfold main.line at h
  cases hs : SplitOpcode line MAX_OPERAND with
  | mk label split =>
    rw [hs] at h
    simp only at h
    cases label with
    | none =>
      simp only at h
      refine ⟨st, rfl, rfl, rfl, Or.inl rfl, ?_⟩
      cases split with
      | none =>
        simp only at h
        injection h with h
        exact Or.inl h.symm
      | some r =>
        obtain ⟨mn, ops⟩ := r
        simp only at h
        cases hc : main.condition (ToLower mn) with
        | error e => rw [hc] at h; exact absurd h (by simp)
        | ok r =>
          obtain ⟨base, flag⟩ := r
          rw [hc] at h
          exact Or.inr ⟨mn, ops, base, flag, rfl, hc, h⟩
    | some l =>
      simp only at h
      by_cases hl : 128 ≤ st.labels.length
      · rw [if_pos hl] at h; exact absurd h (by simp)
      · rw [if_neg hl] at h
        simp only at h
        refine ⟨{ st with labels := st.labels ++ [⟨l, st.pc⟩] }, rfl, rfl, rfl, Or.inr rfl, ?_⟩
        cases split with
        | none =>
          simp only at h
          injection h with h
          exact Or.inl h.symm
        | some r =>
          obtain ⟨mn, ops⟩ := r
          simp only at h
          cases hc : main.condition (ToLower mn) with
          | error e => rw [hc] at h; exact absurd h (by simp)
          | ok r =>
            obtain ⟨base, flag⟩ := r
            rw [hc] at h
            exact Or.inr ⟨mn, ops, base, flag, rfl, hc, h⟩

/-- What a successful `main.encode` does to the tables: one instruction appended, the
backpatches it records all name that instruction, `pc` grows by 1 to 3 words. -/
theorem encode_step (st st1 : State) (base : CStr) (flag : Nat) (ops : List CStr)
    (h : main.encode st base flag ops = .ok st1) :
    ∃ i Y, st1.insn = st.insn ++ [i] ∧ st1.backpatches = st.backpatches ++ Y ∧
      (∀ b ∈ Y, b.insn_idx = st.insn.length) ∧ st1.labels = st.labels ∧
      st.pc + 1 ≤ st1.pc ∧ st1.pc ≤ st.pc + 3 ∧ st.insn.length < 1024 := by
  by_cases hadd : base = "add".toList
  · subst hadd
    obtain ⟨in1, bps1, in2, bps2, hlen, _, hg1, hg2, _, _, hne, hst⟩ :=
      encode_add_ok st st1 flag ops h
    subst hst
    obtain ⟨_, _, hb1⟩ := GetOperandRegImm_ok _ _ _ _ _ hg1
    obtain ⟨_, _, hb2⟩ := GetOperandRegImm_ok _ _ _ _ _ hg2
    have hl := SetInput_len (opcodeOut 0x12 flag ops) in1 (some in2)
    have hY : ∃ Y, bps2 = st.backpatches ++ Y ∧ ∀ b ∈ Y, b.insn_idx = st.insn.length := by
      rcases hb1 with e1 | ⟨L1, _, _, e1⟩ <;> rcases hb2 with e2 | ⟨L2, _, _, e2⟩
      · exact ⟨[], by simp [e1, e2], by simp⟩
      · exact ⟨[_], by rw [e2, e1], by simp⟩
      · exact ⟨[_], by rw [e2, e1], by simp⟩
      · refine ⟨[⟨st.insn.length, L1, if in1.kind = .kImm8 then .BP_ABS8 else .BP_ABS16⟩,
          ⟨st.insn.length, L2, if in2.kind = .kImm8 then .BP_ABS8 else .BP_ABS16⟩], ?_, ?_⟩
        · rw [e2, e1, List.append_assoc]
          rfl
        · intro b hb
          simp only [List.mem_cons, List.mem_singleton, List.not_mem_nil, or_false] at hb
          rcases hb with hb | hb <;> rw [hb]
    obtain ⟨Y, hY1, hY2⟩ := hY
    refine ⟨_, Y, rfl, hY1, hY2, rfl, ?_, ?_, hlen⟩
    · simp only; omega
    · simp only; omega
  · by_cases hmov : base = "mov".toList
    · subst hmov
      obtain ⟨in1, bps1, hlen, _, hg1, _, hst⟩ := encode_mov_ok st st1 flag ops h
      subst hst
      obtain ⟨_, _, hb1⟩ := GetOperandRegImm_ok _ _ _ _ _ hg1
      have hl : 1 ≤ (SetInput (opcodeOut 0x00 flag ops) in1 none).2 ∧
          (SetInput (opcodeOut 0x00 flag ops) in1 none).2 ≤ 3 := by
        obtain ⟨k1, v1⟩ := in1
        cases k1 <;> simp [SetInput, RegImmKind.toNat]
      have hY : ∃ Y, bps1 = st.backpatches ++ Y ∧ ∀ b ∈ Y, b.insn_idx = st.insn.length := by
        rcases hb1 with e1 | ⟨L1, _, _, e1⟩
        · exact ⟨[], by simp [e1], by simp⟩
        · exact ⟨[_], e1, by simp⟩
      obtain ⟨Y, hY1, hY2⟩ := hY
      refine ⟨_, Y, rfl, hY1, hY2, rfl, ?_, ?_, hlen⟩
      · simp only; omega
      · simp only; omega
    · unfold main.encode at h
      simp only [hadd, hmov, if_false] at h
      exact absurd h (by simp)

/-- The loop body keeps the pass-1 invariant and only appends to the three tables; the
backpatches it adds name the instruction it adds. -/
theorem line_step (st st1 : State) (line : CStr) (hinv : PassInv st)
    (h : main.line st line = .ok st1) :
    PassInv st1 ∧
    ∃ X Y Z, st1.insn = st.insn ++ X ∧ st1.backpatches = st.backpatches ++ Y ∧
      st1.labels = st.labels ++ Z ∧ (∀ b ∈ Y, st.insn.length ≤ b.insn_idx) := by
  obtain ⟨hb, hn, hp0, hp1, hl⟩ := hinv
  obtain ⟨st0, e1, e2, e3, e4, hcase⟩ := line_cases st st1 line h
  have hl0 : ∀ l ∈ st0.labels, 0 ≤ l.pc ∧ l.pc ≤ 3072 := by
    rcases e4 with e4 | e4
    · rw [e4]; exact hl
    · rw [e4]
      intro l hm
      rcases List.mem_append.mp hm with hm | hm
      · exact hl l hm
      · simp only [List.mem_singleton] at hm
        subst hm
        simp only
        omega
  have hZ : ∃ Z, st0.labels = st.labels ++ Z := by
    rcases e4 with e4 | e4
    · exact ⟨[], by simp [e4]⟩
    · exact ⟨_, e4⟩
  obtain ⟨Z, hZ⟩ := hZ
  rcases hcase with hst | ⟨mn, ops, base, flag, _, _, henc⟩
  · subst hst
    refine ⟨⟨?_, ?_, ?_, ?_, hl0⟩, [], [], Z, by simp [e1], by simp [e3], hZ, by simp⟩
    · rw [e3, e1]; exact hb
    · rw [e1]; exact hn
    · rw [e2]; exact hp0
    · rw [e2, e1]; exact hp1
  · obtain ⟨i, Y, h1, h2, h3, h4, h5, h6, h7⟩ := encode_step st0 st1 base flag ops henc
    rw [e1] at h1 h3 h7
    rw [e2] at h5 h6
    rw [e3] at h2
    refine ⟨⟨?_, ?_, ?_, ?_, ?_⟩, [i], Y, Z, h1, h2, by rw [h4, hZ], ?_⟩
    · intro b hm
      rw [h2] at hm
      rw [h1, List.length_append, List.length_singleton]
      rcases List.mem_append.mp hm with hm | hm
      · have := hb b hm; omega
      · have := h3 b hm; omega
    · rw [h1, List.length_append, List.length_singleton]; omega
    · omega
    · rw [h1, List.length_append, List.length_singleton]; push_cast; omega
    · rw [h4]; exact hl0
    · intro b hm
      have := h3 b hm
      omega

/-- Pass 1 keeps the invariant and only appends to the three tables; the backpatches
it adds name instructions it adds. -/
theorem pass1_step (lines : List CStr) :
    ∀ (st st1 : State), PassInv st → main.pass1 st lines = .ok st1 →
      PassInv st1 ∧
      ∃ X Y Z, st1.insn = st.insn ++ X ∧ st1.backpatches = st.backpatches ++ Y ∧
        st1.labels = st.labels ++ Z ∧ (∀ b ∈ Y, st.insn.length ≤ b.insn_idx) := by
  induction lines with
  | nil =>
    intro st st1 hinv h
    unfold main.pass1 at h
    injection h with h
    subst h
    exact ⟨hinv, [], [], [], by simp, by simp, by simp, by simp⟩
  | cons line lines ih =>
    intro st st1 hinv h
    unfold main.pass1 at h
    cases hl : main.line st line with
    | error e => rw [hl] at h; exact absurd h (by simp)
    | ok stm =>
      rw [hl] at h
      simp only at h
      obtain ⟨hinv1, X1, Y1, Z1, a1, a2, a3, a4⟩ := line_step st stm line hinv hl
      obtain ⟨hinv2, X2, Y2, Z2, b1, b2, b3, b4⟩ := ih stm st1 hinv1 h
      refine ⟨hinv2, X1 ++ X2, Y1 ++ Y2, Z1 ++ Z2, ?_, ?_, ?_, ?_⟩
      · rw [b1, a1, List.append_assoc]
      · rw [b2, a2, List.append_assoc]
      · rw [b3, a3, List.append_assoc]
      · intro b hm
        rcases List.mem_append.mp hm with hm | hm
        · exact a4 b hm
        · have := b4 b hm
          rw [a1, List.length_append] at this
          omega

theorem PassInv_init : PassInv State.init := by
  unfold PassInv State.init ORIGIN
  simp

theorem patched_in (b : Backpatch) (addr : Int) (t : Instruction) :
    (patched b addr t).in_ = t.in_ ∧ (patched b addr t).op = t.op ∧
      (patched b addr t).out = t.out := by
  unfold patched
  cases b.type <;> exact ⟨rfl, rfl, rfl⟩

theorem patched_imm16 (b : Backpatch) (addr : Int) (t : Instruction)
    (h : b.type ≠ .BP_ABS16) : (patched b addr t).imm16 = t.imm16 := by
  unfold patched
  cases hb : b.type with
  | BP_ABS16 => exact absurd hb h
  | BP_ABS8 => rfl

theorem patched_imm8 (b : Backpatch) (addr : Int) (t : Instruction)
    (h : b.type ≠ .BP_ABS8) : (patched b addr t).imm8 = t.imm8 := by
  unfold patched
  cases hb : b.type with
  | BP_ABS16 => rfl
  | BP_ABS8 => exact absurd hb h

theorem emitInsn_advance (debug : Bool) (pc : Int) (i : Instruction) :
    (main.emitInsn debug pc i).2 = pc + (if main.hasImm16 i then 3 else 2) := by
  unfold main.emitInsn
  simp only
  split <;> omega

/-- C11: every table entry resolves to its own index (so the 16 names are pairwise
distinct and index -> name -> index, name -> index -> name are identities on the table),
and `RegNameToIndex` returns -1 or a value in 0..15 on every string; a non-negative
result is the index at which the table holds the string. -/
theorem C11_table_round_trip (s : CStr) :
    (∀ i : Fin 16, RegNameToIndex (reg_names.getD i.val []) = (i.val : Int)) ∧
    reg_names.length = 16 ∧ reg_names.Nodup ∧
    (RegNameToIndex s = -1 ∨ (0 ≤ RegNameToIndex s ∧ RegNameToIndex s < 16)) ∧
    (RegNameToIndex s ≠ -1 → reg_names[(RegNameToIndex s).toNat]? = some s) := by
  refine ⟨by decide, rfl, by decide, RegNameToIndex_range s, ?_⟩
  intro h
  have hm := RegNameToIndex_mem s h
  have key : ∀ n ∈ reg_names, reg_names[(RegNameToIndex n).toNat]? = some n := by decide
  exact key s hm

/-- C11 at the name `sp` (index 14). -/
theorem C11_table_round_trip_witness :
    reg_names[(RegNameToIndex "sp".toList).toNat]? = some "sp".toList :=
  (C11_table_round_trip "sp".toList).2.2.2.2 (by decide)

/-- One backpatch step fails exactly when the label is not in the table, or the target is
a byte and the first matching entry has an address of 256 or more. -/
theorem patch_error_iff (labels : List LabelAddr) (insn : List Instruction) (bp : Backpatch) :
    (∃ e, main.patch labels insn bp = .error e) ↔
      (labels.find? (fun l => decide (bp.label = l.label)) = none ∨
        (bp.type = .BP_ABS8 ∧
          ∃ l, labels.find? (fun l => decide (bp.label = l.label)) = some l ∧ 256 ≤ l.pc)) := by
  unfold main.patch
  cases hf : labels.find? (fun l => decide (bp.label = l.label)) with
  | none => simp
  | some l =>
    cases hty : bp.type with
    | BP_ABS16 => simp
    | BP_ABS8 =>
      by_cases hbig : 256 ≤ l.pc
      · simp [hbig]
      · simp [hbig]

/-- Pass 2 fails exactly when one of its backpatch steps would fail; whether a step fails
does not depend on the instruction table. -/
theorem pass2_error_iff (labels : List LabelAddr) (bps : List Backpatch) :
    ∀ insn : List Instruction, (∃ e, main.pass2 labels bps insn = .error e) ↔
      ∃ bp ∈ bps, (labels.find? (fun l => decide (bp.label = l.label)) = none ∨
        (bp.type = .BP_ABS8 ∧
          ∃ l, labels.find? (fun l => decide (bp.label = l.label)) = some l ∧ 256 ≤ l.pc)) := by
  induction bps with
  | nil =>
    intro insn
    simp [main.pass2]
  | cons b bs ih =>
    intro insn
    have hp := patch_error_iff labels insn b
    cases hpb : main.patch labels insn b with
    | error e =>
      have hb := hp.mp ⟨e, hpb⟩
      constructor
      · intro _
        exact ⟨b, List.mem_cons_self _ _, hb⟩
      · intro _
        exact ⟨e, by simp only [main.pass2, hpb]⟩
    | ok insn1 =>
      have hnb : ¬ (labels.find? (fun l => decide (b.label = l.label)) = none ∨
          (b.type = .BP_ABS8 ∧
            ∃ l, labels.find? (fun l => decide (b.label = l.label)) = some l ∧ 256 ≤ l.pc)) := by
        intro hc
        obtain ⟨e, he⟩ := hp.mpr hc
        rw [hpb] at he
        exact absurd he (by simp)
      have hstep : main.pass2 labels (b :: bs) insn = main.pass2 labels bs insn1 := by
        simp only [main.pass2, hpb]
      rw [hstep]
      constructor
      · intro h
        obtain ⟨bp, hm, hc⟩ := (ih insn1).mp h
        exact ⟨bp, List.mem_cons_of_mem _ hm, hc⟩
      · rintro ⟨bp, hm, hc⟩
        rcases List.mem_cons.mp hm with hm | hm
        · subst hm
          exact absurd hc hnb
        · exact (ih insn1).mpr ⟨bp, hm, hc⟩

theorem find_none_iff (labels : List LabelAddr) (name : CStr) :
    labels.find? (fun l => decide (name = l.label)) = none ↔ ∀ l ∈ labels, l.label ≠ name := by
  rw [List.find?_eq_none]
  constructor
  · intro h l hl hc
    exact h l hl (by simp [hc])
  · intro h l hl hc
    simp only [decide_eq_true_eq] at hc
    exact h l hl hc.symm

/-- C12: pass 2 fails exactly when some pending backpatch's label equals no entry of the
label table, or some byte-target backpatch's first matching entry has an address of 256
or more; the failure is one of the two fatal diagnostics of the pass; a word-target
backpatch to a defined label never fails; and with the table `x -> 300, x -> 5` a
byte-target backpatch to `x` is fatal, the later small definition notwithstanding. -/
theorem C12_pass2_fails_iff (labels : List LabelAddr) (bps : List Backpatch)
    (insn : List Instruction) :
    ((∃ e, main.pass2 labels bps insn = .error e) ↔
      ∃ bp ∈ bps, (∀ l ∈ labels, l.label ≠ bp.label) ∨
        (bp.type = .BP_ABS8 ∧
          ∃ l, labels.find? (fun l => decide (bp.label = l.label)) = some l ∧ 256 ≤ l.pc)) ∧
    (∀ bp, bp.type = .BP_ABS16 → (∃ l ∈ labels, l.label = bp.label) →
      ∃ insn1, main.patch labels insn bp = .ok insn1) ∧
    main.pass2 [⟨"x".toList, 300⟩, ⟨"x".toList, 5⟩] [⟨0, "x".toList, .BP_ABS8⟩]
      [Instruction.zero] = .error .labelTooBig ∧
    main.pass2 [⟨"x".toList, 300⟩, ⟨"x".toList, 5⟩] [⟨0, "x".toList, .BP_ABS16⟩]
      [Instruction.zero] = .ok [{ Instruction.zero with imm16 := 300 }] := by
  refine ⟨?_, ?_, by decide, by decide⟩
  · rw [pass2_error_iff labels bps insn]
    constructor
    · rintro ⟨bp, hm, hc⟩
      refine ⟨bp, hm, ?_⟩
      rcases hc with hc | hc
      · exact Or.inl ((find_none_iff labels bp.label).mp hc)
      · exact Or.inr hc
    · rintro ⟨bp, hm, hc⟩
      refine ⟨bp, hm, ?_⟩
      rcases hc with hc | hc
      · exact Or.inl ((find_none_iff labels bp.label).mpr hc)
      · exact Or.inr hc
  · intro bp hty ⟨l, hl, hname⟩
    cases hp : main.patch labels insn bp with
    | ok insn1 => exact ⟨insn1, rfl⟩
    | error e =>
      exfalso
      rcases (patch_error_iff labels insn bp).mp ⟨e, hp⟩ with hc | ⟨hc, _⟩
      · exact (find_none_iff labels bp.label).mp hc l hl hname
      · rw [hty] at hc
        exact absurd hc (by simp)

/-- C12 at a word-target backpatch to the defined label `x`. -/
theorem C12_pass2_fails_iff_witness :
    ∃ insn1, main.patch [⟨"x".toList, 300⟩] [Instruction.zero] ⟨0, "x".toList, .BP_ABS16⟩ =
      .ok insn1 :=
  (C12_pass2_fails_iff [⟨"x".toList, 300⟩] [] [Instruction.zero]).2.1
    ⟨0, "x".toList, .BP_ABS16⟩ rfl ⟨⟨"x".toList, 300⟩, by simp, rfl⟩

/-- The last backpatch of its type for an instruction decides the field: after pass 2 the
field holds the address of the first label-table entry with that backpatch's label,
narrowed to the field's width. -/
theorem pass2_last (labels : List LabelAddr) (bps A B : List Backpatch) (b : Backpatch)
    (insn insnF : List Instruction)
    (h : main.pass2 labels bps insn = .ok insnF) (hbps : bps = A ++ b :: B)
    (hB : ∀ c ∈ B, ¬ (c.insn_idx = b.insn_idx ∧ c.type = b.type))
    (hk : b.insn_idx < insn.length) :
    ∃ l i, labels.find? (fun l => decide (b.label = l.label)) = some l ∧
      insnF[b.insn_idx]? = some i ∧
      (b.type = .BP_ABS16 → i.imm16 = toU16 l.pc) ∧
      (b.type = .BP_ABS8 → i.imm8 = toU8 l.pc ∧ l.pc < 256) := by
  subst hbps
  obtain ⟨mid, hA, hrest⟩ := pass2_append labels A (b :: B) insn insnF h
  obtain ⟨hlenA, _⟩ := pass2_frame (fun t => t.in_) labels b.insn_idx A insn mid hA
    (fun c _ _ addr t => (patched_in c addr t).1)
  unfold main.pass2 at hrest
  cases hp : main.patch labels mid b with
  | error e => rw [hp] at hrest; exact absurd hrest (by simp)
  | ok mid2 =>
    rw [hp] at hrest
    simp only at hrest
    obtain ⟨l, hfind, h256, hlen2, hget2⟩ := patch_ok labels mid mid2 b hp
    have hmid : ∃ t1, mid[b.insn_idx]? = some t1 := by
      have : b.insn_idx < mid.length := by omega
      exact ⟨mid[b.insn_idx], List.getElem?_eq_getElem this⟩
    obtain ⟨t1, ht1⟩ := hmid
    have hm2 : mid2[b.insn_idx]? = some (patched b l.pc t1) := by
      rw [hget2 b.insn_idx, ht1]
      simp
    obtain ⟨hlenB, _⟩ := pass2_frame (fun t => t.in_) labels b.insn_idx B mid2 insnF hrest
      (fun c _ _ addr t => (patched_in c addr t).1)
    have hF : ∃ i, insnF[b.insn_idx]? = some i := by
      have : b.insn_idx < insnF.length := by omega
      exact ⟨insnF[b.insn_idx], List.getElem?_eq_getElem this⟩
    obtain ⟨i, hi⟩ := hF
    refine ⟨l, i, hfind, hi, ?_, ?_⟩
    · intro hty
      obtain ⟨_, h16⟩ := pass2_frame (fun t => t.imm16) labels b.insn_idx B mid2 insnF hrest
        (by
          intro c hc hidx addr t
          apply patched_imm16
          intro hct
          exact hB c hc ⟨hidx, by rw [hct, hty]⟩)
      rw [hi, hm2] at h16
      simp only [Option.map_some', Option.some.injEq] at h16
      rw [h16]
      unfold patched
      rw [hty]
    · intro hty
      obtain ⟨_, h8⟩ := pass2_frame (fun t => t.imm8) labels b.insn_idx B mid2 insnF hrest
        (by
          intro c hc hidx addr t
          apply patched_imm8
          intro hct
          exact hB c hc ⟨hidx, by rw [hct, hty]⟩)
      rw [hi, hm2] at h8
      simp only [Option.map_some', Option.some.injEq] at h8
      refine ⟨?_, h256 hty⟩
      rw [h8]
      unfold patched
      rw [hty]

/-- C13: in a run in which pass 1 and pass 2 succeed, pass 2 keeps the length of the
instruction table and the `op`, `out` and `in` bytes of every entry; the `imm8`
(`imm16`) of entry `k` differs from its pass-1 value only if some byte-target
(word-target) backpatch names `k`; and when a backpatch names `k`, the field of its type
ends up equal to the address of the first label-table entry whose name is the label of
the last backpatch of that type naming `k`. -/
theorem C13_pass2_writes (lines : List CStr) (stF : State) (insnF : List Instruction)
    (k : Nat)
    (hrun : main.pass1 State.init lines = .ok stF)
    (h2 : main.pass2 stF.labels stF.backpatches stF.insn = .ok insnF) :
    insnF.length = stF.insn.length ∧
    ((insnF[k]?).map (fun t => t.op) = (stF.insn[k]?).map (fun t => t.op) ∧
      (insnF[k]?).map (fun t => t.out) = (stF.insn[k]?).map (fun t => t.out) ∧
      (insnF[k]?).map (fun t => t.in_) = (stF.insn[k]?).map (fun t => t.in_)) ∧
    ((insnF[k]?).map (fun t => t.imm8) ≠ (stF.insn[k]?).map (fun t => t.imm8) →
      ∃ b ∈ stF.backpatches, b.insn_idx = k ∧ b.type = .BP_ABS8) ∧
    ((insnF[k]?).map (fun t => t.imm16) ≠ (stF.insn[k]?).map (fun t => t.imm16) →
      ∃ b ∈ stF.backpatches, b.insn_idx = k ∧ b.type = .BP_ABS16) ∧
    (∀ A b B, stF.backpatches = A ++ b :: B → b.insn_idx = k →
      (∀ c ∈ B, ¬ (c.insn_idx = k ∧ c.type = b.type)) →
      ∃ l i, stF.labels.find? (fun l => decide (b.label = l.label)) = some l ∧
        insnF[k]? = some i ∧
        (b.type = .BP_ABS8 → (i.imm8 : Int) = l.pc) ∧
        (b.type = .BP_ABS16 → (i.imm16 : Int) = l.pc)) := by
  obtain ⟨hinv, _⟩ := pass1_step lines State.init stF PassInv_init hrun
  obtain ⟨hlen, hin⟩ := pass2_frame (fun t => t.in_) stF.labels k stF.backpatches stF.insn
    insnF h2 (fun c _ _ addr t => (patched_in c addr t).1)
  obtain ⟨_, hop⟩ := pass2_frame (fun t => t.op) stF.labels k stF.backpatches stF.insn
    insnF h2 (fun c _ _ addr t => (patched_in c addr t).2.1)
  obtain ⟨_, hout⟩ := pass2_frame (fun t => t.out) stF.labels k stF.backpatches stF.insn
    insnF h2 (fun c _ _ addr t => (patched_in c addr t).2.2)
  refine ⟨hlen, ⟨hop, hout, hin⟩, ?_, ?_, ?_⟩
  · intro hne
    by_contra hno
    apply hne
    exact (pass2_frame (fun t => t.imm8) stF.labels k stF.backpatches stF.insn insnF h2
      (by
        intro c hc hidx addr t
        apply patched_imm8
        intro hct
        exact hno ⟨c, hc, hidx, hct⟩)).2
  · intro hne
    by_contra hno
    apply hne
    exact (pass2_frame (fun t => t.imm16) stF.labels k stF.backpatches stF.insn insnF h2
      (by
        intro c hc hidx addr t
        apply patched_imm16
        intro hct
        exact hno ⟨c, hc, hidx, hct⟩)).2
  · intro A b B hbps hidx hB
    subst hidx
    have hmem : b ∈ stF.backpatches := by rw [hbps]; simp
    have hk : b.insn_idx < stF.insn.length := hinv.1 b hmem
    obtain ⟨l, i, hfind, hi, h16, h8⟩ :=
      pass2_last stF.labels stF.backpatches A B b stF.insn insnF h2 hbps hB hk
    have hl := hinv.2.2.2.2 l (List.mem_of_find?_eq_some hfind)
    refine ⟨l, i, hfind, hi, ?_, ?_⟩
    · intro hty
      rw [(h8 hty).1]
      unfold toU8
      have := (h8 hty).2
      omega
    · intro hty
      rw [h16 hty]
      unfold toU16
      omega

/-- C13 on the program `mov a, 5` / `y: add b, byte x, byte y` / `x: mov c, word y`, at
table entry 1: two byte-target backpatches name it, the last one is for `y`. -/
theorem C13_pass2_writes_witness :
    ∃ l i, ([⟨"y".toList, 1⟩, ⟨"x".toList, 4⟩] : List LabelAddr).find?
          (fun l => decide ("y".toList = l.label)) = some l ∧
      ([⟨0x00, 0x15, 0x10, 5, 0⟩, ⟨0x12, 0x16, 0x12, 1, 0⟩, ⟨0x00, 0x17, 0x20, 0, 1⟩] :
        List Instruction)[1]? = some i ∧
      (BPType.BP_ABS8 = .BP_ABS8 → (i.imm8 : Int) = l.pc) ∧
      (BPType.BP_ABS8 = .BP_ABS16 → (i.imm16 : Int) = l.pc) :=
  (C13_pass2_writes
    ["mov a, 5\n".toList, "y: add b, byte x, byte y\n".toList, "x: mov c, word y\n".toList]
    ⟨[⟨0x00, 0x15, 0x10, 5, 0⟩, ⟨0x12, 0x16, 0x12, 0, 0⟩, ⟨0x00, 0x17, 0x20, 0, 0⟩], 6,
      [⟨1, "x".toList, .BP_ABS8⟩, ⟨1, "y".toList, .BP_ABS8⟩, ⟨2, "y".toList, .BP_ABS16⟩],
      [⟨"y".toList, 1⟩, ⟨"x".toList, 4⟩]⟩
    [⟨0x00, 0x15, 0x10, 5, 0⟩, ⟨0x12, 0x16, 0x12, 1, 0⟩, ⟨0x00, 0x17, 0x20, 0, 1⟩]
    1 (by decide) (by decide)).2.2.2.2
    [⟨1, "x".toList, .BP_ABS8⟩] ⟨1, "y".toList, .BP_ABS8⟩ [⟨2, "y".toList, .BP_ABS16⟩]
    rfl rfl (by decide)

/-- The label table after the loop body: the line's label, if it has one, is appended with
the `pc` before the line. -/
theorem line_labels (st st1 : State) (line : CStr) (h : main.line st line = .ok st1) :
    st1.labels = st.labels ++
      (match (SplitOpcode line MAX_OPERAND).1 with
       | some l => [⟨l, st.pc⟩]
       | none => []) := by
  unfold main.line at h
  cases hs : SplitOpcode line MAX_OPERAND with
  | mk label split =>
    rw [hs] at h
    simp only at h
    have key : ∀ st0 : State, (match split with
        | none => Except.ok st0
        | some (mnemonic, operands) =>
          match main.condition (ToLower mnemonic) with
          | .error e => .error e
          | .ok (base, flag) => main.encode st0 base flag operands) = .ok st1 →
        st1.labels = st0.labels := by
      intro st0 h0
      cases split with
      | none =>
        simp only at h0
        injection h0 with h0
        rw [h0]
      | some r =>
        obtain ⟨mn, ops⟩ := r
        simp only at h0
        cases hc : main.condition (ToLower mn) with
        | error e => rw [hc] at h0; exact absurd h0 (by simp)
        | ok r =>
          obtain ⟨base, flag⟩ := r
          rw [hc] at h0
          obtain ⟨_, _, _, _, _, hl, _⟩ := encode_step st0 st1 base flag ops h0
          exact hl
    cases label with
    | none =>
      simp only at h
      rw [key st h]
      simp
    | some l =>
      simp only at h
      by_cases hl : 128 ≤ st.labels.length
      · rw [if_pos hl] at h; exact absurd h (by simp)
      · rw [if_neg hl] at h
        simp only at h
        rw [key _ h]

/-- Every label-table entry that pass 1 adds carries the label of one of the lines read. -/
theorem pass1_labels (lines : List CStr) :
    ∀ (st st1 : State), main.pass1 st lines = .ok st1 →
      ∃ Z, st1.labels = st.labels ++ Z ∧
        ∀ l ∈ Z, ∃ line ∈ lines, (SplitOpcode line MAX_OPERAND).1 = some l.label := by
  induction lines with
  | nil =>
    intro st st1 h
    unfold main.pass1 at h
    injection h with h
    subst h
    exact ⟨[], by simp, by simp⟩
  | cons line lines ih =>
    intro st st1 h
    unfold main.pass1 at h
    cases hl : main.line st line with
    | error e => rw [hl] at h; exact absurd h (by simp)
    | ok stm =>
      rw [hl] at h
      simp only at h
      have h1 := line_labels st stm line hl
      obtain ⟨Z, hZ, hZ2⟩ := ih stm st1 h
      have hZl : ∃ Zl, stm.labels = st.labels ++ Zl ∧
          ∀ l ∈ Zl, (SplitOpcode line MAX_OPERAND).1 = some l.label := by
        cases hsp : (SplitOpcode line MAX_OPERAND).1 with
        | none => rw [hsp] at h1; exact ⟨[], h1, by simp⟩
        | some lab =>
          rw [hsp] at h1
          refine ⟨_, h1, ?_⟩
          intro l hm
          simp only [List.mem_singleton] at hm
          rw [hm]
      obtain ⟨Zl, hZl1, hZl2⟩ := hZl
      refine ⟨Zl ++ Z, by rw [hZ, hZl1, List.append_assoc], ?_⟩
      intro l hm
      rcases List.mem_append.mp hm with hm | hm
      · exact ⟨line, List.mem_cons_self _ _, hZl2 l hm⟩
      · obtain ⟨ln, hln, he⟩ := hZ2 l hm
        exact ⟨ln, List.mem_cons_of_mem _ hln, he⟩

/-- The address pass 2 finds for a label is the `pc` of pass 1 just before the first
line that defines it. -/
theorem first_definition (pre post : List CStr) (dline L : CStr) (st1 st2 stF : State)
    (hpre : main.pass1 State.init pre = .ok st1)
    (hdline : main.line st1 dline = .ok st2)
    (hpost : main.pass1 st2 post = .ok stF)
    (hdef : (SplitOpcode dline MAX_OPERAND).1 = some L)
    (hfirst : ∀ line ∈ pre, (SplitOpcode line MAX_OPERAND).1 ≠ some L) :
    stF.labels.find? (fun l => decide (L = l.label)) = some ⟨L, st1.pc⟩ := by
  obtain ⟨Z1, hZ1, hZ1b⟩ := pass1_labels pre State.init st1 hpre
  have h2 := line_labels st1 st2 dline hdline
  rw [hdef] at h2
  obtain ⟨Z3, hZ3, _⟩ := pass1_labels post st2 stF hpost
  have hnone : st1.labels.find? (fun l => decide (L = l.label)) = none := by
    rw [find_none_iff]
    intro l hl hc
    rw [hZ1] at hl
    have hl2 : l ∈ Z1 := by simpa [State.init] using hl
    obtain ⟨ln, hln, he⟩ := hZ1b l hl2
    rw [hc] at he
    exact hfirst ln hln he
  rw [hZ3, h2, List.append_assoc, List.find?_append, hnone]
  simp

/-- C14: in a run in which both passes succeed, let `dline` be the first line that defines
the label `L` and `st1.pc` the pass-1 program counter just before it. Then pass 2 looks
`L` up as `st1.pc`; every pending backpatch for `L`, whichever line recorded it (before,
after or at `dline`), writes `st1.pc` into its target; and the field of its type holds
`st1.pc` after pass 2 when no later backpatch of that type names the same instruction. On
`loop: mov a, byte loop`, ten `mov b, a`, `add a, a, word loop` the `mov`'s `imm8` and the
`add`'s `imm16` are 0; on a program that refers to `end` before defining it both
references resolve to the same address, 5. -/
theorem C14_order_independent (pre post : List CStr) (dline L : CStr) (st1 st2 stF : State)
    (insnF : List Instruction)
    (hpre : main.pass1 State.init pre = .ok st1)
    (hdline : main.line st1 dline = .ok st2)
    (hpost : main.pass1 st2 post = .ok stF)
    (hdef : (SplitOpcode dline MAX_OPERAND).1 = some L)
    (hfirst : ∀ line ∈ pre, (SplitOpcode line MAX_OPERAND).1 ≠ some L)
    (h2 : main.pass2 stF.labels stF.backpatches stF.insn = .ok insnF) :
    stF.labels.find? (fun l => decide (L = l.label)) = some ⟨L, st1.pc⟩ ∧
    (∀ b ∈ stF.backpatches, b.label = L → ∀ insn insn1 t,
      main.patch stF.labels insn b = .ok insn1 → insn[b.insn_idx]? = some t →
      insn1[b.insn_idx]? = some (patched b st1.pc t)) ∧
    (∀ A b B, stF.backpatches = A ++ b :: B → b.label = L →
      (∀ c ∈ B, ¬ (c.insn_idx = b.insn_idx ∧ c.type = b.type)) →
      ∃ i, insnF[b.insn_idx]? = some i ∧
        (b.type = .BP_ABS8 → (i.imm8 : Int) = st1.pc) ∧
        (b.type = .BP_ABS16 → (i.imm16 : Int) = st1.pc)) ∧
    (main.assemble (["loop: mov a, byte loop\n".toList] ++
        List.replicate 10 "mov b, a\n".toList ++ ["add a, a, word loop\n".toList])).map
      (fun insn => ((insn[0]?).map (fun t => t.imm8), (insn[11]?).map (fun t => t.imm16)))
      = .ok (some 0, some 0) ∧
    (main.assemble ["add a, a, word end\n".toList, "mov b, a\n".toList,
        "end: mov a, byte end\n".toList]).map
      (fun insn => ((insn[0]?).map (fun t => t.imm16), (insn[2]?).map (fun t => t.imm8)))
      = .ok (some 5, some 5) := by
  have hfind := first_definition pre post dline L st1 st2 stF hpre hdline hpost hdef hfirst
  have hinv1 : PassInv st1 := (pass1_step pre State.init st1 PassInv_init hpre).1
  have hinv2 : PassInv st2 := (line_step st1 st2 dline hinv1 hdline).1
  have hinvF : PassInv stF := (pass1_step post st2 stF hinv2 hpost).1
  refine ⟨hfind, ?_, ?_, by decide, by decide⟩
  · intro b _ hlab insn insn1 t hp ht
    obtain ⟨l, hl, _, _, hget⟩ := patch_ok stF.labels insn insn1 b hp
    rw [hlab, hfind] at hl
    injection hl with hl
    subst hl
    rw [hget b.insn_idx, ht]
    simp
  · intro A b B hbps hlab hB
    have hmem : b ∈ stF.backpatches := by rw [hbps]; simp
    have hk : b.insn_idx < stF.insn.length := hinvF.1 b hmem
    obtain ⟨l, i, hl, hi, h16, h8⟩ :=
      pass2_last stF.labels stF.backpatches A B b stF.insn insnF h2 hbps hB hk
    rw [hlab, hfind] at hl
    injection hl with hl
    subst hl
    obtain ⟨_, hn, hp0, hp1, _⟩ := hinv1
    refine ⟨i, hi, ?_, ?_⟩
    · intro hty
      obtain ⟨e, hlt⟩ := h8 hty
      rw [e]
      simp only at hlt ⊢
      unfold toU8
      omega
    · intro hty
      rw [h16 hty]
      simp only
      unfold toU16
      omega

/-- C14 on the program `add a, a, word end` / `mov b, a` / `end: mov a, byte end`, whose
third line is the first definition of `end`: the forward reference of line 1. -/
theorem C14_order_independent_witness :
    ∃ i, ([⟨0x12, 0x15, 0x52, 0, 5⟩, ⟨0x00, 0x16, 0x50, 0, 0⟩, ⟨0x00, 0x15, 0x10, 5, 0⟩] :
        List Instruction)[0]? = some i ∧
      (BPType.BP_ABS16 = .BP_ABS8 → (i.imm8 : Int) = 5) ∧
      (BPType.BP_ABS16 = .BP_ABS16 → (i.imm16 : Int) = 5) :=
  (C14_order_independent ["add a, a, word end\n".toList, "mov b, a\n".toList] []
    "end: mov a, byte end\n".toList "end".toList
    ⟨[⟨0x12, 0x15, 0x52, 0, 0⟩, ⟨0x00, 0x16, 0x50, 0, 0⟩], 5,
      [⟨0, "end".toList, .BP_ABS16⟩], []⟩
    ⟨[⟨0x12, 0x15, 0x52, 0, 0⟩, ⟨0x00, 0x16, 0x50, 0, 0⟩, ⟨0x00, 0x15, 0x10, 0, 0⟩], 6,
      [⟨0, "end".toList, .BP_ABS16⟩, ⟨2, "end".toList, .BP_ABS8⟩], [⟨"end".toList, 5⟩]⟩
    ⟨[⟨0x12, 0x15, 0x52, 0, 0⟩, ⟨0x00, 0x16, 0x50, 0, 0⟩, ⟨0x00, 0x15, 0x10, 0, 0⟩], 6,
      [⟨0, "end".toList, .BP_ABS16⟩, ⟨2, "end".toList, .BP_ABS8⟩], [⟨"end".toList, 5⟩]⟩
    [⟨0x12, 0x15, 0x52, 0, 5⟩, ⟨0x00, 0x16, 0x50, 0, 0⟩, ⟨0x00, 0x15, 0x10, 5, 0⟩]
    (by decide) (by decide) (by decide) (by decide) (by decide) (by decide)).2.2.1
    [] ⟨0, "end".toList, .BP_ABS16⟩ [⟨2, "end".toList, .BP_ABS8⟩] rfl rfl (by decide)

theorem hexDigit_upper (d : Nat) (h : d < 16) :
    hexDigit true d ∈ "0123456789ABCDEF".toList := by
  have key : ∀ d : Fin 16, hexDigit true d.val ∈ "0123456789ABCDEF".toList := by decide
  exact key ⟨d, h⟩

theorem hexDigits_mem (fuel : Nat) :
    ∀ (n : Nat) (acc : CStr) (c : Char), c ∈ hexDigits true fuel n acc →
      c ∈ acc ∨ c ∈ "0123456789ABCDEF".toList := by
  induction fuel with
  | zero =>
    intro n acc c hc
    unfold hexDigits at hc
    rcases List.mem_cons.mp hc with hc | hc
    · right; rw [hc]; exact hexDigit_upper _ (Nat.mod_lt _ (by decide))
    · left; exact hc
  | succ fuel ih =>
    intro n acc c hc
    unfold hexDigits at hc
    split at hc
    · rename_i hn
      rcases List.mem_cons.mp hc with hc | hc
      · right; rw [hc]; exact hexDigit_upper _ hn
      · left; exact hc
    · rcases ih _ _ c hc with h | h
      · rcases List.mem_cons.mp h with h | h
        · right; rw [h]; exact hexDigit_upper _ (Nat.mod_lt _ (by decide))
        · left; exact h
      · right; exact h

theorem hexDigits_length (upper : Bool) (fuel : Nat) :
    ∀ (n k : Nat) (acc : CStr), n < 16 ^ (k + 1) →
      (hexDigits upper fuel n acc).length ≤ acc.length + k + 1 := by
  induction fuel with
  | zero =>
    intro n k acc _
    unfold hexDigits
    simp only [List.length_cons]
    omega
  | succ fuel ih =>
    intro n k acc hn
    unfold hexDigits
    split
    · simp only [List.length_cons]
      omega
    · rename_i h16
      cases k with
      | zero => simp at hn; omega
      | succ k =>
        have hdiv : n / 16 < 16 ^ (k + 1) := by
          rw [Nat.div_lt_iff_lt_mul (by decide)]
          rw [pow_succ] at hn
          exact hn
        have := ih (n / 16) k (hexDigit upper (n % 16) :: acc) hdiv
        simp only [List.length_cons] at this
        omega

/-- A value below `16 ^ width` is printed by `%0<width>X` as exactly `width` characters,
all of them upper-case hexadecimal digits. -/
theorem printfHex_token (width n : Nat) (hw : 0 < width) (hn : n < 16 ^ width) :
    (printfHex true width n).length = width ∧
      ∀ c ∈ printfHex true width n, c ∈ "0123456789ABCDEF".toList := by
  unfold printfHex
  simp only
  have hlen : (hexDigits true 7 n []).length ≤ width := by
    obtain ⟨k, rfl⟩ : ∃ k, width = k + 1 := ⟨width - 1, by omega⟩
    have := hexDigits_length true 7 n k [] hn
    simpa using this
  refine ⟨?_, ?_⟩
  · rw [List.length_append, List.length_replicate]
    omega
  · intro c hc
    rcases List.mem_append.mp hc with hc | hc
    · rw [List.eq_of_mem_replicate hc]
      decide
    · rcases hexDigits_mem 7 n [] c hc with h | h
      · exact absurd h (by simp)
      · exact h

/-- C15, as stated, fails: in compact mode the instruction of `mov a, 5` is printed as the
two lines `0015` and `1005` (`op` and `out` share a token, so do `in` and `imm8`), not as
four two-digit lines; it contributes 2 newline-terminated tokens, neither 4 nor 5. -/
theorem C15_two_tokens_not_four :
    (main.emitInsn false 0 ⟨0x00, 0x15, 0x10, 0x05, 0⟩).1 = "0015\n1005\n".toList ∧
    (main.emitInsn false 0 ⟨0x00, 0x15, 0x10, 0x05, 0⟩).1 ≠ "00\n15\n10\n05\n".toList ∧
    (main.emitInsn false 0 ⟨0x00, 0x15, 0x10, 0x05, 0⟩).1.count '\n' = 2 ∧
    main none ["mov a, 5\n".toList] = .ok "0015\n1005\n".toList := by
  decide

/-- C15, amended: in compact mode the emitter writes, for an instruction whose fields are
in the ranges of their C types, the token `op out` (four upper-case hexadecimal digits) and
a newline, the token `in imm8` (four digits) and a newline, and then the token `imm16`
(four digits) and a newline exactly when the width test holds; so the instruction
contributes exactly 2 or 3 newline-terminated tokens. -/
theorem C15_compact_tokens (pc : Int) (i : Instruction) (hop : i.op < 256)
    (hout : i.out < 256) (hin : i.in_ < 256) (h8 : i.imm8 < 256) (h16 : i.imm16 < 65536) :
    ∃ t1 t2 t3 : CStr,
      t1 = printfHex true 2 i.op ++ printfHex true 2 i.out ∧
      t2 = printfHex true 2 i.in_ ++ printfHex true 2 i.imm8 ∧
      t3 = printfHex true 4 i.imm16 ∧
      t1.length = 4 ∧ t2.length = 4 ∧ t3.length = 4 ∧
      (∀ c ∈ t1 ++ t2 ++ t3, c ∈ "0123456789ABCDEF".toList) ∧
      (main.emitInsn false pc i).1 =
        t1 ++ ['\n'] ++ (t2 ++ ['\n']) ++ (if main.hasImm16 i then t3 ++ ['\n'] else []) ∧
      (main.emitInsn false pc i).1.count '\n' = (if main.hasImm16 i then 3 else 2) := by
  obtain ⟨l1, m1⟩ := printfHex_token 2 i.op (by decide) (by simpa using hop)
  obtain ⟨l2, m2⟩ := printfHex_token 2 i.out (by decide) (by simpa using hout)
  obtain ⟨l3, m3⟩ := printfHex_token 2 i.in_ (by decide) (by simpa using hin)
  obtain ⟨l4, m4⟩ := printfHex_token 2 i.imm8 (by decide) (by simpa using h8)
  obtain ⟨l5, m5⟩ := printfHex_token 4 i.imm16 (by decide) (by simpa using h16)
  have hnl : ∀ t : CStr, (∀ c ∈ t, c ∈ "0123456789ABCDEF".toList) → t.count '\n' = 0 := by
    intro t ht
    apply List.count_eq_zero_of_not_mem
    intro hm
    exact absurd (ht _ hm) (by decide)
  have htext : (main.emitInsn false pc i).1 =
      (printfHex true 2 i.op ++ printfHex true 2 i.out) ++ ['\n'] ++
        ((printfHex true 2 i.in_ ++ printfHex true 2 i.imm8) ++ ['\n']) ++
        (if main.hasImm16 i then printfHex true 4 i.imm16 ++ ['\n'] else []) := by
    unfold main.emitInsn
    simp
  refine ⟨_, _, _, rfl, rfl, rfl, ?_, ?_, ?_, ?_, htext, ?_⟩
  · rw [List.length_append, l1, l2]
  · rw [List.length_append, l3, l4]
  · exact l5
  · intro c hc
    simp only [List.mem_append] at hc
    rcases hc with ((hc | hc) | (hc | hc)) | hc
    · exact m1 c hc
    · exact m2 c hc
    · exact m3 c hc
    · exact m4 c hc
    · exact m5 c hc
  · rw [htext]
    simp only [List.count_append]
    rw [hnl _ m1, hnl _ m2, hnl _ m3, hnl _ m4]
    by_cases hw : main.hasImm16 i = true
    · simp only [hw, if_true, List.count_append]
      rw [hnl _ m5]
      rfl
    · simp only [hw, if_false]
      rfl

/-- C15 (amended) at the instruction of `add.z c, a, word 1000`. -/
theorem C15_compact_tokens_witness :
    ∃ t1 t2 t3 : CStr,
      t1 = printfHex true 2 0x12 ++ printfHex true 2 0x67 ∧
      t2 = printfHex true 2 0x52 ++ printfHex true 2 0 ∧
      t3 = printfHex true 4 1000 ∧
      t1.length = 4 ∧ t2.length = 4 ∧ t3.length = 4 ∧
      (∀ c ∈ t1 ++ t2 ++ t3, c ∈ "0123456789ABCDEF".toList) ∧
      (main.emitInsn false 0 ⟨0x12, 0x67, 0x52, 0, 1000⟩).1 =
        t1 ++ ['\n'] ++ (t2 ++ ['\n']) ++
          (if main.hasImm16 ⟨0x12, 0x67, 0x52, 0, 1000⟩ then t3 ++ ['\n'] else []) ∧
      (main.emitInsn false 0 ⟨0x12, 0x67, 0x52, 0, 1000⟩).1.count '\n' =
        (if main.hasImm16 ⟨0x12, 0x67, 0x52, 0, 1000⟩ then 3 else 2) :=
  C15_compact_tokens 0 ⟨0x12, 0x67, 0x52, 0, 1000⟩ (by decide) (by decide) (by decide)
    (by decide) (by decide)

theorem strchr_split (before after : CStr) (c : Char) (h : c ∉ before) :
    strchr (before ++ c :: after) c = some (before, after) := by
  have hall : ∀ d ∈ before, (d != c) = true := by
    intro d hd
    simp only [bne_iff_ne, ne_eq]
    exact fun e => h (e ▸ hd)
  have htw : (before ++ c :: after).takeWhile (fun d => d != c) = before := by
    rw [List.takeWhile_append_of_pos hall, List.takeWhile_cons]
    simp
  unfold strchr
  simp only [htw]
  rw [if_pos (by simp)]
  simp

theorem strchr_none (s : CStr) (c : Char) (h : c ∉ s) : strchr s c = none := by
  have hall : ∀ d ∈ s, (d != c) = true := by
    intro d hd
    simp only [bne_iff_ne, ne_eq]
    exact fun e => h (e ▸ hd)
  unfold strchr
  rw [List.takeWhile_eq_self_iff.mpr hall]
  simp

theorem first_occurrence (s : CStr) (c : Char) (h : c ∈ s) :
    ∃ before after, s = before ++ c :: after ∧ c ∉ before := by
  induction s with
  | nil => exact absurd h (by simp)
  | cons a t ih =>
    by_cases hac : a = c
    · exact ⟨[], t, by simp [hac], by simp⟩
    · have ht : c ∈ t := by
        rcases List.mem_cons.mp h with e | e
        · exact absurd e.symm hac
        · exact e
      obtain ⟨b, af, e, hn⟩ := ih ht
      refine ⟨a :: b, af, by simp [e], ?_⟩
      intro hm
      rcases List.mem_cons.mp hm with e2 | e2
      · exact hac e2.symm
      · exact hn e2

/-- The result of `SplitOpcode` on a line with a `:`: the label is the text before the
first `:`, and the mnemonic and operands are read from the text after it. -/
theorem SplitOpcode_colon (before after : CStr) (n : Nat) (h : ':' ∉ before) :
    SplitOpcode (before ++ ':' :: after) n =
      (some before,
        match strtok after " \t\n".toList with
        | none => none
        | some (m, rest) => some (m, SplitOpcode.operands n rest)) := by
  unfold SplitOpcode
  rw [strchr_split before after ':' h]
  simp only
  cases strtok after " \t\n".toList with
  | none => rfl
  | some r => rfl

/-- The result of `SplitOpcode` on a line without `:`: no label, and the mnemonic and
operands are read from the whole line. -/
theorem SplitOpcode_no_colon (line : CStr) (n : Nat) (h : ':' ∉ line) :
    SplitOpcode line n =
      (none,
        match strtok line " \t\n".toList with
        | none => none
        | some (m, rest) => some (m, SplitOpcode.operands n rest)) := by
  unfold SplitOpcode
  rw [strchr_none line ':' h]
  simp only
  cases strtok line " \t\n".toList with
  | none => rfl
  | some r => rfl

/-- C16, as stated, fails: in `mov a, byte x:y` the only `:` comes after the first token,
yet `SplitOpcode` reports the label `mov a, byte x` and the mnemonic `y` with no operand;
assembling the line stops with `unknown mnemonic`. -/
theorem C16_colon_in_operand_makes_label :
    SplitOpcode "mov a, byte x:y\n".toList MAX_OPERAND =
      (some "mov a, byte x".toList, some ("y".toList, [])) ∧
    main.line State.init "mov a, byte x:y\n".toList = .error .unknownMnemonic := by
  decide

/-- C16, amended: `SplitOpcode` reports a label exactly when the line contains a `:`
anywhere; the label is then the text before the first `:` and the mnemonic and operands
are read from the text after it; a line without `:` has no label and is read whole. So
`mov a, byte x:y` gets the label `mov a, byte x` and the mnemonic `y`. -/
theorem C16_label_iff_colon (line : CStr) (n : Nat) :
    ((SplitOpcode line n).1.isSome = true ↔ ':' ∈ line) ∧
    (∀ before after, line = before ++ ':' :: after → ':' ∉ before →
      SplitOpcode line n =
        (some before,
          match strtok after " \t\n".toList with
          | none => none
          | some (m, rest) => some (m, SplitOpcode.operands n rest))) ∧
    (':' ∉ line →
      SplitOpcode line n =
        (none,
          match strtok line " \t\n".toList with
          | none => none
          | some (m, rest) => some (m, SplitOpcode.operands n rest))) ∧
    SplitOpcode "mov a, byte x:y\n".toList MAX_OPERAND =
      (some "mov a, byte x".toList, some ("y".toList, [])) := by
  refine ⟨?_, ?_, SplitOpcode_no_colon line n, by decide⟩
  · constructor
    · intro h
      by_contra hc
      rw [SplitOpcode_no_colon line n hc] at h
      exact absurd h (by simp)
    · intro h
      obtain ⟨b, a, e, hn⟩ := first_occurrence line ':' h
      rw [e, SplitOpcode_colon b a n hn]
      rfl
  · intro before after e hn
    rw [e]
    exact SplitOpcode_colon before after n hn

/-- C16 (amended) at the lines `loop: mov a, 5` and `mov a, 5`. -/
theorem C16_label_iff_colon_witness :
    SplitOpcode "loop: mov a, 5\n".toList 4 =
      (some "loop".toList,
        match strtok " mov a, 5\n".toList " \t\n".toList with
        | none => none
        | some (m, rest) => some (m, SplitOpcode.operands 4 rest)) ∧
    SplitOpcode "mov a, 5\n".toList 4 =
      (none,
        match strtok "mov a, 5\n".toList " \t\n".toList with
        | none => none
        | some (m, rest) => some (m, SplitOpcode.operands 4 rest)) :=
  ⟨(C16_label_iff_colon "loop: mov a, 5\n".toList 4).2.1 "loop".toList " mov a, 5\n".toList
      (by decide) (by decide),
   (C16_label_iff_colon "mov a, 5\n".toList 4).2.2.1 (by decide)⟩

/-- C17, as stated, fails: for `add a, 3, 4` both sources are byte-sized, and `SetInput`
stores the second value, 4, in `imm16` (and tags the second slot as a word immediate,
`in = 0x12`); `imm16` is not left unchanged. -/
theorem C17_byte_byte_sets_imm16 :
    (SetInput Instruction.zero ⟨.kImm8, 3⟩ (some ⟨.kImm8, 4⟩)).1 = ⟨0, 0, 0x12, 3, 4⟩ ∧
    (SetInput Instruction.zero ⟨.kImm8, 3⟩ (some ⟨.kImm8, 4⟩)).1.imm16 ≠
      Instruction.zero.imm16 ∧
    main.pass1 State.init ["add a, 3, 4\n".toList] =
      .ok ⟨[⟨0x12, 0x15, 0x12, 3, 4⟩], 3, [], []⟩ := by
  decide

/-- C17, amended: for an `add` whose two sources are immediates, not both word-sized,
`SetInput` returns 3 and writes both payload fields. When the first is byte-sized,
whatever the kind of the second, `in = 0x12`, `imm8` gets the low byte of the first value
(`val mod 256`, the value itself when it is below 256) and `imm16` the second value (so
of two byte-sized operands the second goes to `imm16`); when the first is word-sized
and the second byte-sized, `in = 0x21`, `imm16` gets the first value and `imm8` the low
byte of the second. `op` and `out` are untouched. `add a, byte 300, 4` gets
`imm8 = 0x2C` and `imm16 = 4`. -/
theorem C17_imm_imm (insn : Instruction) (in1 in2 : RegImm)
    (h1 : in1.kind ≠ .kReg) (h2 : in2.kind ≠ .kReg)
    (hnot : ¬ (in1.kind = .kImm16 ∧ in2.kind = .kImm16))
    (hv1 : in1.val < 65536) (hv2 : in2.val < 65536) :
    (SetInput insn in1 (some in2)).2 = 3 ∧
    (in1.kind = .kImm8 →
      (SetInput insn in1 (some in2)).1 =
        { insn with in_ := 0x12, imm8 := in1.val % 256, imm16 := in2.val }) ∧
    (in1.kind = .kImm16 →
      in2.kind = .kImm8 ∧
      (SetInput insn in1 (some in2)).1 =
        { insn with in_ := 0x21, imm16 := in1.val, imm8 := in2.val % 256 }) ∧
    (in1.kind = .kImm8 → in1.val < 256 → (SetInput insn in1 (some in2)).1.imm8 = in1.val) ∧
    (in1.kind = .kImm16 → in2.val < 256 → (SetInput insn in1 (some in2)).1.imm8 = in2.val) ∧
    main.assemble ["add a, byte 300, 4\n".toList] = .ok [⟨0x12, 0x15, 0x12, 0x2C, 4⟩] := by
  obtain ⟨k1, v1⟩ := in1
  obtain ⟨k2, v2⟩ := in2
  simp only at h1 h2 hnot hv1 hv2
  have e1 : v1 % 65536 = v1 := by omega
  have e2 : v2 % 65536 = v2 := by omega
  cases k1 with
  | kReg => exact absurd rfl h1
  | kImm8 =>
    have hs : SetInput insn ⟨.kImm8, v1⟩ (some ⟨k2, v2⟩) =
        ({ insn with in_ := 0x12, imm8 := v1 % 65536 % 256, imm16 := v2 % 65536 }, 3) := by
      cases k2 with
      | kReg => exact absurd rfl h2
      | kImm8 => rfl
      | kImm16 => rfl
    rw [hs, e1, e2]
    refine ⟨rfl, fun _ => rfl, fun hc => absurd hc (by simp), fun _ hlt => ?_,
      fun hc => absurd hc (by simp), by decide⟩
    have hlt1 : v1 < 256 := hlt
    show v1 % 256 = v1
    omega
  | kImm16 =>
    cases k2 with
    | kReg => exact absurd rfl h2
    | kImm16 => exact absurd ⟨rfl, rfl⟩ hnot
    | kImm8 =>
      have hs : SetInput insn ⟨.kImm16, v1⟩ (some ⟨.kImm8, v2⟩) =
          ({ insn with in_ := 0x21, imm16 := v1 % 65536, imm8 := v2 % 65536 % 256 }, 3) := rfl
      rw [hs, e1, e2]
      refine ⟨rfl, fun hc => absurd hc (by simp), fun _ => ⟨rfl, rfl⟩,
        fun hc => absurd hc (by simp), fun _ hlt => ?_, by decide⟩
      have hlt2 : v2 < 256 := hlt
      show v2 % 256 = v2
      omega

/-- C17 (amended) at the sources of `add a, 3, 4`, of `add a, word 300, 4` and of
`add a, byte 300, 4`. -/
theorem C17_imm_imm_witness :
    (SetInput Instruction.zero ⟨.kImm8, 3⟩ (some ⟨.kImm8, 4⟩)).1 =
      { Instruction.zero with in_ := 0x12, imm8 := 3 % 256, imm16 := 4 } ∧
    (SetInput Instruction.zero ⟨.kImm16, 300⟩ (some ⟨.kImm8, 4⟩)).1 =
      { Instruction.zero with in_ := 0x21, imm16 := 300, imm8 := 4 % 256 } ∧
    (SetInput Instruction.zero ⟨.kImm8, 300⟩ (some ⟨.kImm8, 4⟩)).1 =
      { Instruction.zero with in_ := 0x12, imm8 := 300 % 256, imm16 := 4 } ∧
    (SetInput Instruction.zero ⟨.kImm8, 3⟩ (some ⟨.kImm8, 4⟩)).1.imm8 = 3 :=
  ⟨(C17_imm_imm Instruction.zero ⟨.kImm8, 3⟩ ⟨.kImm8, 4⟩ (by decide) (by decide) (by decide)
      (by decide) (by decide)).2.1 rfl,
   ((C17_imm_imm Instruction.zero ⟨.kImm16, 300⟩ ⟨.kImm8, 4⟩ (by decide) (by decide)
      (by decide) (by decide) (by decide)).2.2.1 rfl).2,
   (C17_imm_imm Instruction.zero ⟨.kImm8, 300⟩ ⟨.kImm8, 4⟩ (by decide) (by decide)
      (by decide) (by decide) (by decide)).2.1 rfl,
   (C17_imm_imm Instruction.zero ⟨.kImm8, 3⟩ ⟨.kImm8, 4⟩ (by decide) (by decide) (by decide)
      (by decide) (by decide)).2.2.2.1 rfl (by decide)⟩

/-- The `mov` branch of `main.encode` once the source operand is resolved. -/
theorem encode_mov_eq (st : State) (flag : Nat) (ops : List CStr) (in1 : RegImm)
    (bps1 : List Backpatch) (h0 : st.insn.length < 1024) (hops : 1 < ops.length)
    (hg1 : GetOperandRegImm (ops.getD 1 []) st.backpatches st.insn.length = .ok (in1, bps1))
    (hb1 : bps1.length ≤ 128) :
    main.encode st "mov".toList flag ops =
      .ok { st with
        insn := st.insn ++ [(SetInput (opcodeOut 0x00 flag ops) in1 none).1],
        pc := st.pc + (SetInput (opcodeOut 0x00 flag ops) in1 none).2,
        backpatches := bps1 } := by
  have hne : ¬ ("mov".toList = "add".toList) := by decide
  unfold main.encode
  rw [if_neg hne, if_pos rfl, if_neg (by omega)]
  unfold GetOperand
  rw [if_neg (by omega), if_neg (by omega)]
  simp only
  rw [hg1]
  simp only
  rw [if_neg (by omega)]
  rfl

/-- Lengths for a `mov` from an immediate: `SetInput` returns the kind tag, the emitter
advances by one word more. -/
theorem SetInput_mov_imm (insn : Instruction) (in1 : RegImm) (debug : Bool) (pc : Int)
    (hk : in1.kind ≠ .kReg) :
    (SetInput insn in1 none).2 = (in1.kind.toNat : Int) ∧
    (in1.kind = .kImm8 → (SetInput insn in1 none).2 = 1 ∧
      (main.emitInsn debug pc (SetInput insn in1 none).1).2 = pc + 2) ∧
    (in1.kind = .kImm16 → (SetInput insn in1 none).2 = 2 ∧
      (main.emitInsn debug pc (SetInput insn in1 none).1).2 = pc + 3) ∧
    (main.emitInsn debug pc (SetInput insn in1 none).1).2 =
      pc + (SetInput insn in1 none).2 + 1 := by
  obtain ⟨k, v⟩ := in1
  simp only at hk
  cases k with
  | kReg => exact absurd rfl hk
  | kImm8 =>
    have hs : SetInput insn ⟨.kImm8, v⟩ none =
        ({ insn with in_ := 16, imm8 := v % 65536 % 256 }, 1) := rfl
    have hw : main.hasImm16 { insn with in_ := 16, imm8 := v % 65536 % 256 } = false := by
      have e : (decide ((16 : Nat) &&& 0xf0 = 0x20) || decide ((16 : Nat) &&& 0x0f = 0x02))
          = false := by decide
      exact e
    have hadv : (main.emitInsn debug pc { insn with in_ := 16, imm8 := v % 65536 % 256 }).2 =
        pc + 2 := by
      rw [emitInsn_advance, hw]
      rfl
    rw [hs]
    refine ⟨rfl, fun _ => ⟨rfl, hadv⟩, fun hc => absurd hc (by simp), ?_⟩
    rw [hadv]
    show pc + 2 = pc + 1 + 1
    omega
  | kImm16 =>
    have hs : SetInput insn ⟨.kImm16, v⟩ none =
        ({ insn with in_ := 32, imm16 := v % 65536 }, 2) := rfl
    have hw : main.hasImm16 { insn with in_ := 32, imm16 := v % 65536 } = true := by
      have e : (decide ((32 : Nat) &&& 0xf0 = 0x20) || decide ((32 : Nat) &&& 0x0f = 0x02))
          = true := by decide
      exact e
    have hadv : (main.emitInsn debug pc { insn with in_ := 32, imm16 := v % 65536 }).2 =
        pc + 3 := by
      rw [emitInsn_advance, hw]
      rfl
    rw [hs]
    refine ⟨rfl, fun hc => absurd hc (by simp), fun _ => ⟨rfl, hadv⟩, ?_⟩
    rw [hadv]
    show pc + 3 = pc + 2 + 1
    omega

/-- C18: for a `mov` whose source resolves to an immediate, `SetInput` (called with
`in2 = NULL`) returns the kind tag, 1 for a byte-sized and 2 for a word-sized immediate,
and `main` adds that to the pass-1 `pc`; the emitter advances its address counter for the
same instruction by 2 and 3 words, one word more. In the listing of `mov a, 5` /
`l: mov b, word l` the second instruction is at address 2 while `l` resolved to 1. -/
theorem C18_mov_immediate_length (insn : Instruction) (in1 : RegImm) (debug : Bool)
    (pc : Int) (st : State) (flag : Nat) (ops : List CStr) (bps1 : List Backpatch)
    (hk : in1.kind ≠ .kReg)
    (h0 : st.insn.length < 1024) (hops : 1 < ops.length)
    (hg1 : GetOperandRegImm (ops.getD 1 []) st.backpatches st.insn.length = .ok (in1, bps1))
    (hb1 : bps1.length ≤ 128) :
    (SetInput insn in1 none).2 = (in1.kind.toNat : Int) ∧
    (in1.kind = .kImm8 → (SetInput insn in1 none).2 = 1 ∧
      (main.emitInsn debug pc (SetInput insn in1 none).1).2 = pc + 2) ∧
    (in1.kind = .kImm16 → (SetInput insn in1 none).2 = 2 ∧
      (main.emitInsn debug pc (SetInput insn in1 none).1).2 = pc + 3) ∧
    (main.emitInsn debug pc (SetInput insn in1 none).1).2 =
      pc + (SetInput insn in1 none).2 + 1 ∧
    (∃ i, main.encode st "mov".toList flag ops =
        .ok { st with insn := st.insn ++ [i], pc := st.pc + (in1.kind.toNat : Int),
                      backpatches := bps1 } ∧
      (main.emitInsn debug pc i).2 = pc + (in1.kind.toNat : Int) + 1) ∧
    main (some "-d".toList) ["mov a, 5\n".toList, "l: mov b, word l\n".toList] =
      .ok "00000000: 0015 1005 \n00000002: 0016 2000 0001 \n".toList := by
  obtain ⟨a1, a2, a3, a4⟩ := SetInput_mov_imm insn in1 debug pc hk
  refine ⟨a1, a2, a3, a4, ?_, by decide⟩
  obtain ⟨b1, _, _, b4⟩ := SetInput_mov_imm (opcodeOut 0x00 flag ops) in1 debug pc hk
  refine ⟨(SetInput (opcodeOut 0x00 flag ops) in1 none).1, ?_, ?_⟩
  · rw [encode_mov_eq st flag ops in1 bps1 h0 hops hg1 hb1, b1]
  · rw [b4, b1]

/-- C18 at `mov a, 5`, from the initial state. -/
theorem C18_mov_immediate_length_witness :
    (SetInput Instruction.zero ⟨.kImm8, 5⟩ none).2 = ((RegImmKind.kImm8).toNat : Int) ∧
    (main.emitInsn false 0 (SetInput Instruction.zero ⟨.kImm8, 5⟩ none).1).2 =
      0 + (SetInput Instruction.zero ⟨.kImm8, 5⟩ none).2 + 1 :=
  ⟨(C18_mov_immediate_length Instruction.zero ⟨.kImm8, 5⟩ false 0 State.init 1
      ["a".toList, "5".toList] [] (by decide) (by decide) (by decide) (by decide)
      (by decide)).1,
   (C18_mov_immediate_length Instruction.zero ⟨.kImm8, 5⟩ false 0 State.init 1
      ["a".toList, "5".toList] [] (by decide) (by decide) (by decide) (by decide)
      (by decide)).2.2.2.1⟩

/-- The emitter's width test on an `in` byte built from two 4-bit selectors. -/
theorem hasImm16_nib (i : Instruction) (a b : Nat) (ha : a < 16) (hb : b < 16)
    (h : i.in_ = ((a <<< 4) ||| b) % 256) :
    main.hasImm16 i = decide (a = 2 ∨ b = 2) := by
  obtain ⟨n1, _, _, n4, n5⟩ := nibbles a b ha hb
  unfold main.hasImm16
  rw [h, n1, decide_eq_decide.mpr n4, decide_eq_decide.mpr n5, Bool.decide_or]

/-- The encoder's length for an `add` against the emitter's width test, case by case on
the kinds of the two sources. -/
theorem SetInput_add_lengths (insn : Instruction) (in1 in2 : RegImm)
    (hr1 : in1.kind = .kReg → in1.val < 16) (hr2 : in2.kind = .kReg → in2.val < 16)
    (hne : (SetInput insn in1 (some in2)).2 ≠ -1) :
    ((SetInput insn in1 (some in2)).2 =
        (if main.hasImm16 (SetInput insn in1 (some in2)).1 then 3 else 2) ↔
      ¬ (((in1.kind = .kReg ∧ in1.val = 2) ∨ (in2.kind = .kReg ∧ in2.val = 2)) ∧
          in1.kind ≠ .kImm16 ∧ in2.kind ≠ .kImm16)) ∧
    ((((in1.kind = .kReg ∧ in1.val = 2) ∨ (in2.kind = .kReg ∧ in2.val = 2)) ∧
          in1.kind ≠ .kImm16 ∧ in2.kind ≠ .kImm16) →
      (SetInput insn in1 (some in2)).2 = 2 ∧
      main.hasImm16 (SetInput insn in1 (some in2)).1 = true) := by
  obtain ⟨k1, v1⟩ := in1
  obtain ⟨k2, v2⟩ := in2
  simp only at hr1 hr2
  cases k1 <;> cases k2
  · -- register, register
    have hw := hasImm16_nib (SetInput insn ⟨.kReg, v1⟩ (some ⟨.kReg, v2⟩)).1 v1 v2
      (hr1 rfl) (hr2 rfl) rfl
    have hl : (SetInput insn ⟨.kReg, v1⟩ (some ⟨.kReg, v2⟩)).2 = 2 := rfl
    rw [hw, hl]
    by_cases a : v1 = 2 <;> by_cases b : v2 = 2 <;> simp [a, b]
  · -- register, byte
    have hw := hasImm16_nib (SetInput insn ⟨.kReg, v1⟩ (some ⟨.kImm8, v2⟩)).1 v1 1
      (hr1 rfl) (by decide) rfl
    have hl : (SetInput insn ⟨.kReg, v1⟩ (some ⟨.kImm8, v2⟩)).2 = 2 := rfl
    rw [hw, hl]
    by_cases a : v1 = 2 <;> simp [a]
  · -- register, word
    have hw := hasImm16_nib (SetInput insn ⟨.kReg, v1⟩ (some ⟨.kImm16, v2⟩)).1 v1 2
      (hr1 rfl) (by decide) rfl
    have hl : (SetInput insn ⟨.kReg, v1⟩ (some ⟨.kImm16, v2⟩)).2 = 3 := rfl
    rw [hw, hl]
    simp
  · -- byte, register
    have hw := hasImm16_nib (SetInput insn ⟨.kImm8, v1⟩ (some ⟨.kReg, v2⟩)).1 1 v2
      (by decide) (hr2 rfl) rfl
    have hl : (SetInput insn ⟨.kImm8, v1⟩ (some ⟨.kReg, v2⟩)).2 = 2 := rfl
    rw [hw, hl]
    by_cases b : v2 = 2 <;> simp [b]
  · -- byte, byte
    have hw := hasImm16_nib (SetInput insn ⟨.kImm8, v1⟩ (some ⟨.kImm8, v2⟩)).1 1 2
      (by decide) (by decide) rfl
    have hl : (SetInput insn ⟨.kImm8, v1⟩ (some ⟨.kImm8, v2⟩)).2 = 3 := rfl
    rw [hw, hl]
    simp
  · -- byte, word
    have hw := hasImm16_nib (SetInput insn ⟨.kImm8, v1⟩ (some ⟨.kImm16, v2⟩)).1 1 2
      (by decide) (by decide) rfl
    have hl : (SetInput insn ⟨.kImm8, v1⟩ (some ⟨.kImm16, v2⟩)).2 = 3 := rfl
    rw [hw, hl]
    simp
  · -- word, register
    have hw := hasImm16_nib (SetInput insn ⟨.kImm16, v1⟩ (some ⟨.kReg, v2⟩)).1 2 v2
      (by decide) (hr2 rfl) rfl
    have hl : (SetInput insn ⟨.kImm16, v1⟩ (some ⟨.kReg, v2⟩)).2 = 3 := rfl
    rw [hw, hl]
    simp
  · -- word, byte
    have hw := hasImm16_nib (SetInput insn ⟨.kImm16, v1⟩ (some ⟨.kImm8, v2⟩)).1 2 1
      (by decide) (by decide) rfl
    have hl : (SetInput insn ⟨.kImm16, v1⟩ (some ⟨.kImm8, v2⟩)).2 = 3 := rfl
    rw [hw, hl]
    simp
  · -- word, word
    exact absurd rfl hne

/-- C19: for an `add` whose resolved sources do not make `SetInput` return -1 (register
indices are below 16), the length `SetInput` returns equals the length the emitter derives
from the resulting `in` byte (3 when its high or low nibble is 2, otherwise 2) exactly
when it is not the case that a register source has index 2 (`ir3`) while neither source is
a word-sized immediate; in that case `SetInput` returns 2 and the emitter advances by 3.
For `add a, ir3, b` pass 1 advances `pc` by 2 and the emitter prints three words. -/
theorem C19_add_length (insn : Instruction) (in1 in2 : RegImm) (debug : Bool) (pc : Int)
    (hr1 : in1.kind = .kReg → in1.val < 16) (hr2 : in2.kind = .kReg → in2.val < 16)
    (hne : (SetInput insn in1 (some in2)).2 ≠ -1) :
    (main.emitInsn debug pc (SetInput insn in1 (some in2)).1).2 =
      pc + (if main.hasImm16 (SetInput insn in1 (some in2)).1 then 3 else 2) ∧
    ((SetInput insn in1 (some in2)).2 =
        (if main.hasImm16 (SetInput insn in1 (some in2)).1 then 3 else 2) ↔
      ¬ (((in1.kind = .kReg ∧ in1.val = 2) ∨ (in2.kind = .kReg ∧ in2.val = 2)) ∧
          in1.kind ≠ .kImm16 ∧ in2.kind ≠ .kImm16)) ∧
    ((((in1.kind = .kReg ∧ in1.val = 2) ∨ (in2.kind = .kReg ∧ in2.val = 2)) ∧
          in1.kind ≠ .kImm16 ∧ in2.kind ≠ .kImm16) →
      (SetInput insn in1 (some in2)).2 = 2 ∧
      (main.emitInsn debug pc (SetInput insn in1 (some in2)).1).2 = pc + 3) ∧
    main.pass1 State.init ["add a, ir3, b\n".toList] =
      .ok ⟨[⟨0x12, 0x15, 0x26, 0, 0⟩], 2, [], []⟩ ∧
    main (some "-d".toList) ["add a, ir3, b\n".toList] =
      .ok "00000000: 1215 2600 0000 \n".toList := by
  obtain ⟨h1, h2⟩ := SetInput_add_lengths insn in1 in2 hr1 hr2 hne
  refine ⟨emitInsn_advance _ _ _, h1, ?_, by decide, by decide⟩
  intro hex
  obtain ⟨e1, e2⟩ := h2 hex
  refine ⟨e1, ?_⟩
  rw [emitInsn_advance, e2]
  rfl

/-- C19 at the sources of `add a, ir3, b` (the excluded case) and of `add a, b, c`. -/
theorem C19_add_length_witness :
    ((SetInput Instruction.zero ⟨.kReg, 2⟩ (some ⟨.kReg, 6⟩)).2 = 2 ∧
      (main.emitInsn false 0 (SetInput Instruction.zero ⟨.kReg, 2⟩ (some ⟨.kReg, 6⟩)).1).2
        = 0 + 3) ∧
    (SetInput Instruction.zero ⟨.kReg, 6⟩ (some ⟨.kReg, 7⟩)).2 =
      (if main.hasImm16 (SetInput Instruction.zero ⟨.kReg, 6⟩ (some ⟨.kReg, 7⟩)).1
        then 3 else 2) :=
  ⟨(C19_add_length Instruction.zero ⟨.kReg, 2⟩ ⟨.kReg, 6⟩ false 0 (fun _ => by decide)
      (fun _ => by decide) (by decide)).2.2.1
      ⟨Or.inl ⟨rfl, rfl⟩, by decide, by decide⟩,
   (C19_add_length Instruction.zero ⟨.kReg, 6⟩ ⟨.kReg, 7⟩ false 0 (fun _ => by decide)
      (fun _ => by decide) (by decide)).2.1.mpr (by decide)⟩

/-- The program is the emitter applied to the table that passes 1 and 2 build. -/
theorem main_eq_emit_assemble (argv1 : Option CStr) (stdin : List CStr) :
    main argv1 stdin =
      (main.assemble stdin).map
        (fun insn => main.emit (decide (argv1 = some "-d".toList)) ORIGIN insn) := by
  unfold main main.assemble
  cases main.pass1 State.init stdin with
  | error e => rfl
  | ok st =>
    simp only
    cases main.pass2 st.labels st.backpatches st.insn with
    | error e => rfl
    | ok insn => rfl

end Nlp16
